import Mathlib

/-!
# Verification of the `taskctl` task-coordination core

A shallow embedding, in Lean 4, of the parts of the `taskctl` source that the
specification's claims are about:

* the dependency-graph engine (`buildDependencyGraph`, `calculateLevels` via
  `visit`, `getReadyTasks`, `hasCyclicDependencies`, `validateDependencies`
  from `src/mcp` / `src/graph`),
* the worktree-pool scheduler (`initializeScheduler`, `getNextBatch`,
  `completeTask` from `src/graph/scheduler.ts`),
* the store queries they consult (`getTasksByPlan`, `getAvailableWorktrees`,
  `getTaskByIdPrefix`, `getPrByTaskId`, …; SQL `SELECT … WHERE … ORDER BY`
  is modelled as `List.filter` followed by a stable `List.insertionSort`),
* the PR-sync path (`convertPrStatus`, the single-task branch of `syncPrs`),
* the planner persistence flow (`calculateTaskLevels`, `generateAndSavePlan`),
* the clock helper (`now`, i.e. `new Date().toISOString()`).

Database rows become Lean structures (the `createdAt`/`updatedAt` audit
columns are omitted: no claim mentions them, and the clock itself is modelled
separately for the timestamp claim).  JavaScript `Map`s and `Set`s become
insertion-ordered association lists and lists; exceptions become `Except`;
ambient effects (the wall clock, the LLM response, the `gh` CLI answer) become
explicit parameters.  Recursion that terminates in JS because the graph is
finite is given explicit fuel; `buildDependencyGraph` passes fuel
`nodes.length + 1`, which is proved sufficient (`calcLoop_no_fuel_error`), so
the `fuel` error constructor is unreachable and every failure is the source's
"Circular dependency detected involving task: <id>" error.
-/

namespace Taskctl

/-- Equality of `Except` results is decidable; used to evaluate the embedded
functions on concrete inputs. -/
instance exceptDecEq {ε α : Type} [DecidableEq ε] [DecidableEq α] :
    DecidableEq (Except ε α) := fun x y =>
  match x, y with
  | .error e, .error f =>
    if h : e = f then .isTrue (by rw [h])
    else .isFalse (fun hc => h (by injection hc))
  | .ok a, .ok b =>
    if h : a = b then .isTrue (by rw [h])
    else .isFalse (fun hc => h (by injection hc))
  | .error _, .ok _ => .isFalse (fun hc => Except.noConfusion hc)
  | .ok _, .error _ => .isFalse (fun hc => Except.noConfusion hc)

/-! ## Data model (from `src/db/schema.ts`)

Statuses are kept as strings, exactly as the TypeScript string unions.
The `tasks` row carries both `worktreeId` (worktree-pool variant) and
`sessionId` (session variant); each variant reads only its own column. -/

structure Task where
  id : String
  planId : String
  title : String
  description : String
  status : String
  level : Int
  estimatedLines : Option Int
  branchName : Option String
  worktreeId : Option String
  sessionId : Option String
deriving DecidableEq

structure TaskDep where
  id : String
  taskId : String
  dependsOnId : String
deriving DecidableEq

structure Plan where
  id : String
  projectId : String
  title : String
  description : Option String
  sourceBranch : String
  status : String
deriving DecidableEq

structure Worktree where
  id : String
  projectId : String
  name : String
  path : String
  branch : Option String
  status : String
  taskId : Option String
deriving DecidableEq

structure Pr where
  id : String
  taskId : String
  number : Int
  url : String
  status : String
  baseBranch : String
  headBranch : String
deriving DecidableEq

/-- `PrInfo` from `src/integrations/github.ts`: the parsed `gh pr view` JSON.
`reviewDecision` is `string | null` in the source. -/
structure PrInfo where
  number : Int
  title : String
  url : String
  state : String
  headBranch : String
  baseBranch : String
  isDraft : Bool
  reviewDecision : Option String
deriving DecidableEq

/-! ## Association lists standing for JavaScript `Map`s

JS `Map` iterates in insertion order; `set` on an existing key replaces the
value but keeps the position.  We model a `Map` as a `List (String × β)` and
mirror `get`/`set` exactly. -/

/-- `Map.get`. -/
def lookupA {β : Type} (m : List (String × β)) (k : String) : Option β :=
  (m.find? (fun p => p.1 == k)).map (fun p => p.2)

/-- `Map.set`: replace in place if the key exists, else append. -/
def setA {β : Type} (m : List (String × β)) (k : String) (v : β) : List (String × β) :=
  if m.any (fun p => p.1 == k) then
    m.map (fun p => if p.1 == k then (p.1, v) else p)
  else m ++ [(k, v)]

/-- Update the value at a key in place (no-op when absent). -/
def modifyA {β : Type} (m : List (String × β)) (k : String) (f : β → β) :
    List (String × β) :=
  m.map (fun p => if p.1 == k then (p.1, f p.2) else p)

/-- `Map.delete`. -/
def deleteA {β : Type} (m : List (String × β)) (k : String) : List (String × β) :=
  m.filter (fun p => p.1 != k)

/-- `Set.add` (no-op when the element is present; appends otherwise). -/
def setAdd (s : List String) (x : String) : List String :=
  if x ∈ s then s else s ++ [x]

/-- `Set.delete`. -/
def setDelete (s : List String) (x : String) : List String :=
  s.filter (fun y => y != x)

/-! ## Dependency graph (from `src/graph/dependency-graph.ts`, also exposed
under `src/mcp`) -/

structure TaskNode where
  task : Task
  dependencies : List String
  dependents : List String
  level : Int
deriving DecidableEq

abbrev NodeMap := List (String × TaskNode)

def lookupNode (nodes : NodeMap) (id : String) : Option TaskNode :=
  lookupA nodes id

/-- The node initialisation loop of `buildDependencyGraph`. -/
def initNodes (tasks : List Task) : NodeMap :=
  tasks.foldl (fun m t => setA m t.id ⟨t, [], [], 0⟩) []

/-- The dependency-insertion loop of `buildDependencyGraph`: an edge is added
only when both endpoints are present in the node map. -/
def addDeps (nodes : NodeMap) (deps : List TaskDep) : NodeMap :=
  deps.foldl
    (fun m d =>
      if (lookupNode m d.taskId).isSome && (lookupNode m d.dependsOnId).isSome then
        modifyA
          (modifyA m d.taskId
            (fun n => { n with dependencies := n.dependencies ++ [d.dependsOnId] }))
          d.dependsOnId
          (fun n => { n with dependents := n.dependents ++ [d.taskId] })
      else m)
    nodes

/-- `nodes.get(nodeId)?.level ?? 0`. -/
def lvlOf (nodes : NodeMap) (id : String) : Int :=
  ((lookupNode nodes id).map (fun n => n.level)).getD 0

/-- `node.level = lvl` (mutation of the node object held in the map). -/
def setLevel (nodes : NodeMap) (id : String) (lvl : Int) : NodeMap :=
  modifyA nodes id (fun n => { n with level := lvl })

/-- Errors thrown by `calculateLevels`.  `cycle id` is the source's
`Circular dependency detected involving task: <id>`; `fuel` is an artefact of
the fuelled embedding and is proved unreachable for the fuel
`buildDependencyGraph` supplies. -/
inductive BuildErr where
  | cycle (taskId : String)
  | fuel
deriving DecidableEq

/-- The mutable state threaded through `calculateLevels`: the node map (whose
`level` fields are written) and the `visited` set.  The source also keeps a
`visiting` set, but it is only ever written, never read, so it is not
modelled. -/
structure VisitSt where
  nodes : NodeMap
  visited : List String
deriving DecidableEq

/-- The `for (const depId of node.dependencies)` loop of `visit`, folding
`maxDepLevel` while threading the mutable state.  The recursive `visit` call
is passed in as `vis` so that `visit` itself can recurse structurally on
fuel. -/
def visitDepsWith (vis : String → VisitSt → Except BuildErr (Int × VisitSt)) :
    List String → VisitSt → Int → Except BuildErr (Int × VisitSt)
  | [], st, acc => .ok (acc, st)
  | d :: rest, st, acc =>
    match vis d st with
    | .error e => .error e
    | .ok (l, st') => visitDepsWith vis rest st' (max acc l)

/-- `visit(nodeId, ancestors)` from `calculateLevels`.  `ancestors` is the
per-DFS-path set (the JS code copies it with `new Set(ancestors)` for every
recursive call); `st.visited` and the levels persist across calls. -/
def visit : Nat → String → List String → VisitSt → Except BuildErr (Int × VisitSt)
  | 0, _, _, _ => .error .fuel
  | fuel + 1, nodeId, ancestors, st =>
    if nodeId ∈ ancestors then .error (.cycle nodeId)
    else if nodeId ∈ st.visited then .ok (lvlOf st.nodes nodeId, st)
    else
      match lookupNode st.nodes nodeId with
      | none => .ok (0, st)
      | some node =>
        match visitDepsWith (fun d s => visit fuel d (nodeId :: ancestors) s)
            node.dependencies st (-1) with
        | .error e => .error e
        | .ok (maxDep, st') =>
          .ok (maxDep + 1,
            ⟨setLevel st'.nodes nodeId (maxDep + 1), nodeId :: st'.visited⟩)

/-- The top-level loop of `calculateLevels`: visit every not-yet-visited
node. -/
def calcLoop (fuel : Nat) : List String → VisitSt → Except BuildErr VisitSt
  | [], st => .ok st
  | id :: rest, st =>
    if id ∈ st.visited then calcLoop fuel rest st
    else
      match visit fuel id [] st with
      | .error e => .error e
      | .ok (_, st') => calcLoop fuel rest st'

/-- The level-bucket map built at the end of `buildDependencyGraph`. -/
def groupLevels (nodes : NodeMap) : List (Int × List String) :=
  nodes.foldl
    (fun acc p =>
      if acc.any (fun b => b.1 == p.2.level) then
        acc.map (fun b => if b.1 == p.2.level then (b.1, b.2 ++ [p.1]) else b)
      else acc ++ [(p.2.level, [p.1])])
    []

def maxLevelOf (nodes : NodeMap) : Int :=
  nodes.foldl (fun m p => max m p.2.level) 0

structure DependencyGraph where
  nodes : NodeMap
  levels : List (Int × List String)
  maxLevel : Int
deriving DecidableEq

/-- `buildDependencyGraph(tasks, deps)`.  The fuel `nodes.length + 1` is
sufficient for the DFS (see `calcLoop_no_fuel_error`), so the function fails
exactly when the source throws its circular-dependency error.  It reads
nothing but its two arguments and on failure produces no graph, so a failed
build leaves every store row untouched. -/
def buildDependencyGraph (tasks : List Task) (deps : List TaskDep) :
    Except BuildErr DependencyGraph :=
  let nodes0 := addDeps (initNodes tasks) deps
  match calcLoop (nodes0.length + 1) (nodes0.map (fun p => p.1)) ⟨nodes0, []⟩ with
  | .error e => .error e
  | .ok st => .ok ⟨st.nodes, groupLevels st.nodes, maxLevelOf st.nodes⟩

/-- `getReadyTasks(graph, completedTaskIds)`. -/
def getReadyTasks (g : DependencyGraph) (completedTaskIds : List String) :
    List Task :=
  g.nodes.filterMap
    (fun p =>
      if p.1 ∈ completedTaskIds then none
      else if p.2.task.status ≠ "pending" ∧ p.2.task.status ≠ "ready" then none
      else if p.2.dependencies.all (fun d => decide (d ∈ completedTaskIds)) then
        some p.2.task
      else none)

/-- `hasCyclicDependencies`: `false` when the build succeeds, `true` when it
throws the circular-dependency error (any other error is rethrown). -/
def hasCyclicDependencies (tasks : List Task) (deps : List TaskDep) :
    Except BuildErr Bool :=
  match buildDependencyGraph tasks deps with
  | .ok _ => .ok false
  | .error (.cycle _) => .ok true
  | .error .fuel => .error .fuel

/-- `validateDependencies(tasks, deps)` from `src/mcp` / `src/graph`. -/
structure ValidationResult where
  valid : Bool
  errors : List String
deriving DecidableEq

def validateDependencies (tasks : List Task) (deps : List TaskDep) :
    ValidationResult :=
  let taskIds := tasks.map (fun t => t.id)
  let errors :=
    deps.foldl
      (fun errs dep =>
        let errs :=
          if dep.taskId ∉ taskIds then
            errs ++ ["Task " ++ dep.taskId ++ " not found"]
          else errs
        let errs :=
          if dep.dependsOnId ∉ taskIds then
            errs ++ ["Dependency " ++ dep.dependsOnId ++ " not found for task " ++ dep.taskId]
          else errs
        if dep.taskId == dep.dependsOnId then
          errs ++ ["Task " ++ dep.taskId ++ " cannot depend on itself"]
        else errs)
      []
  ⟨errors.length == 0, errors⟩

/-! ## Derived views of the node map, used by the correctness proofs -/

/-- The key list of a node map (JS `Map.keys()`, in insertion order). -/
def keysOf (m : NodeMap) : List String := m.map (fun p => p.1)

/-- The node map with every `level` field zeroed: the part of the graph the
DFS never mutates (keys, order, tasks, adjacency). -/
def eraseLv (m : NodeMap) : NodeMap :=
  m.map (fun p => (p.1, { p.2 with level := 0 }))

/-- The dependency list recorded for `a` (empty when `a` has no node). -/
def depsOfN (m : NodeMap) (a : String) : List String :=
  ((lookupNode m a).map (fun n => n.dependencies)).getD []

/-- The dependency edge relation of a node map: `depRel m a b` holds when the
node of `a` lists `b` among its dependencies (task `a` depends on task
`b`). -/
def depRel (m : NodeMap) (a b : String) : Prop := b ∈ depsOfN m a

instance (m : NodeMap) (a b : String) : Decidable (depRel m a b) := by
  unfold depRel
  infer_instance

/-- Every recorded dependency points at an existing node.  This holds for the
map `buildDependencyGraph` constructs, because an edge is inserted only when
both endpoints are present. -/
def DepsClosed (m : NodeMap) : Prop :=
  ∀ p ∈ m, ∀ d ∈ p.2.dependencies, d ∈ keysOf m

/-- All stored levels are non-negative. -/
def LvNonneg (m : NodeMap) : Prop := ∀ p ∈ m, 0 ≤ p.2.level

/-- The invariant the DFS maintains for every visited node: it exists, its
dependencies are all visited, and its level satisfies the source's
`maxDepLevel + 1` recurrence. -/
def GoodSt (st : VisitSt) : Prop :=
  ∀ id ∈ st.visited, ∃ n, lookupNode st.nodes id = some n ∧
    (∀ d ∈ n.dependencies, d ∈ st.visited) ∧
    n.level = (n.dependencies.map (fun d => lvlOf st.nodes d)).foldl max (-1) + 1

/-- What a successful `visit` call may change: levels of newly visited nodes
only.  Keys, order, tasks and adjacency are untouched (`eraseLv` equal), the
visited set only grows, entries of already-visited (or never-visited) nodes
are unchanged, and no ancestor is newly marked visited. -/
def GFrame (anc : List String) (st st' : VisitSt) : Prop :=
  eraseLv st'.nodes = eraseLv st.nodes ∧
  (∀ x ∈ st.visited, x ∈ st'.visited) ∧
  (∀ x, (x ∈ st.visited ∨ x ∉ st'.visited) →
    lookupNode st'.nodes x = lookupNode st.nodes x) ∧
  (∀ x ∈ st'.visited, x ∉ st.visited → x ∉ anc)

/-- The `(key, task)` view of the node map; determined by `eraseLv`, so the
DFS never changes it. -/
def tasksOf (m : NodeMap) : List (String × Task) :=
  m.map (fun p => (p.1, p.2.task))

/-! ## Store queries (from `src/db/repositories/*.ts`)

A table is a `List` of rows in insertion order.  `ORDER BY` becomes a stable
sort (`List.insertionSort`); a `LIMIT n` becomes `List.take n`. -/

/-- `str.startsWith(pre)` on the character lists (structurally recursive, so
concrete instances evaluate inside proofs). -/
def charsStartWith : List Char → List Char → Bool
  | [], _ => true
  | _ :: _, [] => false
  | a :: as, b :: bs => a == b && charsStartWith as bs

/-- JavaScript `s.startsWith(pre)`. -/
def strStartsWith (s pre : String) : Bool := charsStartWith pre.toList s.toList

/-- Lexicographic (code-point) string comparison, structurally recursive so
that concrete instances evaluate inside proofs; this is the ordering SQLite
applies to `TEXT` columns. -/
def charsLE : List Char → List Char → Bool
  | [], _ => true
  | _ :: _, [] => false
  | a :: as, b :: bs =>
    if a.toNat < b.toNat then true
    else if b.toNat < a.toNat then false
    else charsLE as bs

def strLE (s t : String) : Bool := charsLE s.toList t.toList

/-- `ORDER BY level, id` comparison used by `getTasksByPlan`. -/
def taskLE (a b : Task) : Bool :=
  a.level < b.level || (a.level == b.level && strLE a.id b.id)

/-- `getTasksByPlan`: `WHERE plan_id = ? ORDER BY level, id`. -/
def getTasksByPlan (tasks : List Task) (planId : String) : List Task :=
  (tasks.filter (fun t => t.planId == planId)).insertionSort
    (fun a b => taskLE a b = true)

/-- `getTaskById`: `WHERE id = ? LIMIT 1`. -/
def getTaskById (tasks : List Task) (id : String) : Option Task :=
  ((tasks.filter (fun t => t.id == id)).take 1)[0]?

/-- `getTaskByIdPrefix`: `WHERE id LIKE '<pfx>%' LIMIT 2`, then return the row
only when exactly one was found. -/
def getTaskByIdPrefix (tasks : List Task) (pfx : String) : Option Task :=
  let result := (tasks.filter (fun t => strStartsWith t.id pfx)).take 2
  if result.length == 1 then result[0]? else none

/-- `getTaskDependencies`: `WHERE task_id = ?`. -/
def getTaskDependencies (deps : List TaskDep) (taskId : String) : List TaskDep :=
  deps.filter (fun d => d.taskId == taskId)

/-- `getTaskDependents`: `WHERE depends_on_id = ?`. -/
def getTaskDependents (deps : List TaskDep) (taskId : String) : List TaskDep :=
  deps.filter (fun d => d.dependsOnId == taskId)

/-- `getAllDependenciesForPlan`: collect the dependencies of every task of the
plan, in plan-task order. -/
def getAllDependenciesForPlan (tasks : List Task) (deps : List TaskDep)
    (planId : String) : List TaskDep :=
  (getTasksByPlan tasks planId).foldl
    (fun acc t => acc ++ getTaskDependencies deps t.id) []

/-- `updateTask(id, {status})` restricted to the status column (the
`updated_at` column is not modelled). -/
def updateTaskStatus (tasks : List Task) (id status : String) : List Task :=
  tasks.map (fun t => if t.id == id then { t with status := status } else t)

/-- `getPlansByProject`: `WHERE project_id = ? ORDER BY created_at`; rows are
kept in creation order, so the ordering is the list order. -/
def getPlansByProject (plans : List Plan) (projectId : String) : List Plan :=
  plans.filter (fun p => p.projectId == projectId)

def getPlanById (plans : List Plan) (id : String) : Option Plan :=
  ((plans.filter (fun p => p.id == id)).take 1)[0]?

def updatePlanStatus (plans : List Plan) (id status : String) : List Plan :=
  plans.map (fun p => if p.id == id then { p with status := status } else p)

/-- `ORDER BY name` comparison used by the worktree queries. -/
def wtLE (a b : Worktree) : Bool := strLE a.name b.name

/-- `getAvailableWorktrees`: `WHERE project_id = ? AND status = 'available'
ORDER BY name`. -/
def getAvailableWorktrees (wts : List Worktree) (projectId : String) :
    List Worktree :=
  (wts.filter (fun w => w.projectId == projectId && w.status == "available")).insertionSort
    (fun a b => wtLE a b = true)

def updateWorktreeStatus (wts : List Worktree) (id status : String) :
    List Worktree :=
  wts.map (fun w => if w.id == id then { w with status := status } else w)

/-- `releaseWorktree`: make the worktree available again, clearing `task_id`
and `branch`. -/
def releaseWorktree (wts : List Worktree) (id : String) : List Worktree :=
  wts.map (fun w =>
    if w.id == id then { w with taskId := none, branch := none, status := "available" }
    else w)

/-- `getPrByTaskId`: `WHERE task_id = ? LIMIT 1`. -/
def getPrByTaskId (prs : List Pr) (taskId : String) : Option Pr :=
  ((prs.filter (fun p => p.taskId == taskId)).take 1)[0]?

def updatePrStatus (prs : List Pr) (id status : String) : List Pr :=
  prs.map (fun p => if p.id == id then { p with status := status } else p)

/-! ## CLI prefix lookup (`findTask` in `src/commands/task.ts` and
`src/commands/pr.ts`): exact id match first, then the first task in any of
the project's plans whose id starts with the argument. -/

def findTaskScan (tasks : List Task) (taskId : String) :
    List Plan → Option Task
  | [] => none
  | p :: rest =>
    match (getTasksByPlan tasks p.id).find? (fun t => strStartsWith t.id taskId) with
    | some t => some t
    | none => findTaskScan tasks taskId rest

def findTask (tasks : List Task) (plans : List Plan) (projectId : String)
    (taskId : String) : Option Task :=
  match getTaskById tasks taskId with
  | some t => some t
  | none => findTaskScan tasks taskId (getPlansByProject plans projectId)

/-! ## Scheduler (from `src/graph/scheduler.ts`, worktree-pool variant) -/

structure SchedulerContext where
  planId : String
  projectId : String
  projectPath : String
  mainBranch : String
  maxConcurrent : Int

structure ScheduledTask where
  task : Task
  worktree : Worktree
  branchName : String
deriving DecidableEq

structure SchedulerState where
  graph : DependencyGraph
  completedTaskIds : List String
  inProgressTaskIds : List String
  assignedWorktrees : List (String × String)
deriving DecidableEq

/-- The partitioning loop of `initializeScheduler` over the plan's tasks. -/
def partitionTaskSets (tasks : List Task) :
    List String × List String × List (String × String) :=
  tasks.foldl
    (fun acc t =>
      if t.status == "completed" then (acc.1 ++ [t.id], acc.2.1, acc.2.2)
      else if t.status == "in_progress" || t.status == "assigned" ||
          t.status == "pr_created" || t.status == "in_review" then
        (acc.1, acc.2.1 ++ [t.id],
          match t.worktreeId with
          | some w => acc.2.2 ++ [(t.id, w)]
          | none => acc.2.2)
      else acc)
    ([], [], [])

/-- `initializeScheduler(context)`: read the plan's tasks and edges, build the
graph, and partition the task statuses. -/
def initializeScheduler (taskTable : List Task) (depTable : List TaskDep)
    (ctx : SchedulerContext) : Except BuildErr SchedulerState :=
  let tasks := getTasksByPlan taskTable ctx.planId
  let deps := getAllDependenciesForPlan taskTable depTable ctx.planId
  match buildDependencyGraph tasks deps with
  | .error e => .error e
  | .ok graph =>
    let r := partitionTaskSets tasks
    .ok ⟨graph, r.1, r.2.1, r.2.2⟩

/-- `id.substring(0, 8)`. -/
def shortId (id : String) : String := ⟨id.toList.take 8⟩

def isSlugChar (c : Char) : Bool :=
  ('a' ≤ c && c ≤ 'z') || ('0' ≤ c && c ≤ '9')

/-- Collapse consecutive dashes, as `replace(/[^a-z0-9]+/g, "-")` produces a
single dash per run of non-alphanumerics. -/
def collapseDashes : List Char → List Char
  | [] => []
  | [c] => [c]
  | c :: d :: rest =>
    if c == '-' && d == '-' then collapseDashes (d :: rest)
    else c :: collapseDashes (d :: rest)

/-- `slugify(text)`: lowercase, runs of non-alphanumerics to `-`, strip one
leading and one trailing dash (`replace(/^-|-$/g, "")`), first 30 chars. -/
def slugify (text : String) : String :=
  let cs := (text.toList.map Char.toLower).map (fun c => if isSlugChar c then c else '-')
  let cs := collapseDashes cs
  let cs := match cs with
    | '-' :: rest => rest
    | other => other
  let cs := if cs.getLast? == some '-' then cs.dropLast else cs
  ⟨cs.take 30⟩

/-- `generateBranchName(planId, task)`:
`feature/<plan-short>/<task-short>-<slug>`. -/
def generateBranchName (planId : String) (task : Task) : String :=
  "feature/" ++ shortId planId ++ "/" ++ shortId task.id ++ "-" ++ slugify task.title

/-- The scheduling `for` loop of `getNextBatch`: index `i` walks up to
`slots`, pushing `(task, worktree, branch)` pairings and breaking if either
list runs out. -/
def buildScheduleAux (planId : String) (pending : List Task)
    (avail : List Worktree) (i : Nat) : Nat → List ScheduledTask
  | 0 => []
  | rem + 1 =>
    match pending[i]?, avail[i]? with
    | some t, some w =>
      ⟨t, w, generateBranchName planId t⟩ ::
        buildScheduleAux planId pending avail (i + 1) rem
    | _, _ => []

/-- The ready set minus the in-progress set, in graph-node order. -/
def readyMinusInProgress (st : SchedulerState) : List Task :=
  (getReadyTasks st.graph st.completedTaskIds).filter
    (fun t => decide (t.id ∉ st.inProgressTaskIds))

/-- `getNextBatch(context, state)`.  The `getAvailableWorktrees` store query
is evaluated against the worktree table passed in. -/
def getNextBatch (ctx : SchedulerContext) (st : SchedulerState)
    (worktreeTable : List Worktree) : List ScheduledTask :=
  let pendingReadyTasks := readyMinusInProgress st
  if pendingReadyTasks.isEmpty then []
  else
    let availableWorktrees := getAvailableWorktrees worktreeTable ctx.projectId
    let currentInProgress : Int := st.inProgressTaskIds.length
    let slotsAvailable : Int :=
      min (min (ctx.maxConcurrent - currentInProgress)
            (availableWorktrees.length : Int))
        (pendingReadyTasks.length : Int)
    if slotsAvailable ≤ 0 then []
    else
      buildScheduleAux ctx.planId pendingReadyTasks availableWorktrees 0
        slotsAvailable.toNat

/-- The store tables touched by the scheduler's mutating operations. -/
structure SchedStore where
  tasks : List Task
  worktrees : List Worktree
deriving DecidableEq

/-- `completeTask(state, taskId)`: task status to `completed`, bookkeeping
sets updated, and — when a worktree is assigned — the worktree status set to
`completed` (the worktree's `task_id` and `branch` columns are not touched;
only `releaseWorktree`, invoked by the separate `wt reset` command, clears
them and returns the worktree to `available`). -/
def completeTask (store : SchedStore) (st : SchedulerState) (taskId : String) :
    SchedStore × SchedulerState :=
  let tasks' := updateTaskStatus store.tasks taskId "completed"
  let completed' := setAdd st.completedTaskIds taskId
  let inProg' := setDelete st.inProgressTaskIds taskId
  match lookupA st.assignedWorktrees taskId with
  | some wtId =>
    ({ tasks := tasks',
       worktrees := updateWorktreeStatus store.worktrees wtId "completed" },
     { st with
        completedTaskIds := completed'
        inProgressTaskIds := inProg'
        assignedWorktrees := deleteA st.assignedWorktrees taskId })
  | none =>
    ({ tasks := tasks', worktrees := store.worktrees },
     { st with completedTaskIds := completed', inProgressTaskIds := inProg' })

/-! ## PR sync (from `src/integrations/github.ts` and the `pr sync`
command) -/

/-- `convertPrStatus(ghPr)`. -/
def convertPrStatus (ghPr : PrInfo) : String :=
  if ghPr.state == "MERGED" then "merged"
  else if ghPr.state == "CLOSED" then "closed"
  else if ghPr.isDraft then "draft"
  else if ghPr.reviewDecision == some "APPROVED" then "approved"
  else if ghPr.reviewDecision == some "CHANGES_REQUESTED" then "in_review"
  else if ghPr.state == "OPEN" then "open"
  else "draft"

structure SyncStore where
  tasks : List Task
  prs : List Pr
deriving DecidableEq

/-- The single-task branch of `syncPrs(taskId)`: look up the task's PR, fetch
the forge state (`ghGetPr`, passed in as `ghPr`), store the converted status,
and — only when it is `merged` — set the task status to `completed`.  `none`
models the `process.exit(1)` path when the task has no PR. -/
def syncPrSingle (store : SyncStore) (task : Task) (ghPr : PrInfo) :
    Option SyncStore :=
  match getPrByTaskId store.prs task.id with
  | none => none
  | some pr =>
    let newStatus := convertPrStatus ghPr
    let prs' := updatePrStatus store.prs pr.id newStatus
    let tasks' :=
      if newStatus == "merged" then updateTaskStatus store.tasks task.id "completed"
      else store.tasks
    some ⟨tasks', prs'⟩

/-! ## Planner persistence (from `src/mastra/agents/planning.ts` and
`src/mastra/workflows/planning.ts`) -/

/-- A task as returned by the planning agent. -/
structure TaskPlan where
  id : String
  title : String
  description : String
  estimatedLines : Int
  dependsOn : List String
deriving DecidableEq

structure PlanningResult where
  tasks : List TaskPlan
  summary : String
deriving DecidableEq

/-- The `task.dependsOn.map((depId) => getLevel(depId, new Set(visited)))`
loop of `calculateTaskLevels`, collecting the levels while threading the
shared memo map. -/
def getLevelListWith
    (vis : String → List (String × Int) → Except String (Int × List (String × Int))) :
    List String → List (String × Int) →
      Except String (List Int × List (String × Int))
  | [], levels => .ok ([], levels)
  | d :: rest, levels =>
    match vis d levels with
    | .error e => .error e
    | .ok (l, levels') =>
      match getLevelListWith vis rest levels' with
      | .error e => .error e
      | .ok (ls, levels'') => .ok (l :: ls, levels'')

/-- `getLevel(taskId, visited)` from `calculateTaskLevels`: memoised DFS with
a per-path `visited` set; throws on a cycle. -/
def getLevel (taskMap : List (String × TaskPlan)) :
    Nat → String → List String → List (String × Int) →
      Except String (Int × List (String × Int))
  | 0, _, _, _ => .error "fuel exhausted"
  | fuel + 1, taskId, visited, levels =>
    match lookupA levels taskId with
    | some l => .ok (l, levels)
    | none =>
      if taskId ∈ visited then
        .error ("Circular dependency detected involving task: " ++ taskId)
      else
        match lookupA taskMap taskId with
        | none => .ok (0, levels)
        | some task =>
          if task.dependsOn.isEmpty then .ok (0, setA levels taskId 0)
          else
            match getLevelListWith
                (fun d lv => getLevel taskMap fuel d (taskId :: visited) lv)
                task.dependsOn levels with
            | .error e => .error e
            | .ok (ls, levels') =>
              -- `Math.max(...)` over the collected (non-empty) list
              let maxDepLevel :=
                match ls with
                | [] => 0
                | x :: xs => xs.foldl max x
              .ok (maxDepLevel + 1, setA levels' taskId (maxDepLevel + 1))

/-- The top-level loop of `calculateTaskLevels`. -/
def calcTaskLevelsLoop (taskMap : List (String × TaskPlan)) (fuel : Nat) :
    List TaskPlan → List (String × Int) → Except String (List (String × Int))
  | [], levels => .ok levels
  | t :: rest, levels =>
    match getLevel taskMap fuel t.id [] levels with
    | .error e => .error e
    | .ok (_, levels') => calcTaskLevelsLoop taskMap fuel rest levels'

/-- `calculateTaskLevels(tasks)`: a map from planner task id to level. -/
def calculateTaskLevels (tasks : List TaskPlan) :
    Except String (List (String × Int)) :=
  let taskMap := tasks.foldl (fun m t => setA m t.id t) []
  calcTaskLevelsLoop taskMap (tasks.length + 1) tasks []

/-- The store tables touched by `generateAndSavePlan`. -/
structure PlannerStore where
  plans : List Plan
  tasks : List Task
  taskDeps : List TaskDep
deriving DecidableEq

/-- The first pass of `generateAndSavePlan`: create one task row per planner
task (fresh ids come from `genId`, the ULID generator), with status `ready`
at level 0 and `pending` otherwise, and record the planner-id → store-id
map. -/
def insertPlannerTasks (plan : Plan) (levels : List (String × Int))
    (genId : Nat → String) :
    List TaskPlan → Nat → List Task × List (String × String)
  | [], _ => ([], [])
  | tp :: rest, i =>
    let level := (lookupA levels tp.id).getD 0
    let task : Task :=
      { id := genId i
        planId := plan.id
        title := tp.title
        description := tp.description
        status := if level == 0 then "ready" else "pending"
        level := level
        estimatedLines := some tp.estimatedLines
        branchName := none
        worktreeId := none
        sessionId := none }
    let r := insertPlannerTasks plan levels genId rest (i + 1)
    (task :: r.1, (tp.id, task.id) :: r.2)

/-- One planner task's `dependsOn` loop in the second pass of
`generateAndSavePlan`: insert a dependency row for every `dependsOn` entry
whose target was created, drawing fresh row ids from `genId` at successive
indices. -/
def insertDepsOf (idMap : List (String × String)) (genId : Nat → String)
    (taskId : String) : List String → Nat → List TaskDep × Nat
  | [], i => ([], i)
  | depAiId :: rest, i =>
    match lookupA idMap depAiId with
    | none => insertDepsOf idMap genId taskId rest i
    | some depId =>
      let r := insertDepsOf idMap genId taskId rest (i + 1)
      (({ id := genId i, taskId := taskId, dependsOnId := depId } : TaskDep) :: r.1, r.2)

/-- The second pass of `generateAndSavePlan`. -/
def insertPlannerDeps (idMap : List (String × String)) (genId : Nat → String) :
    List TaskPlan → Nat → List TaskDep
  | [], _ => []
  | tp :: rest, i =>
    match lookupA idMap tp.id with
    | none => insertPlannerDeps idMap genId rest i
    | some taskId =>
      let r := insertDepsOf idMap genId taskId tp.dependsOn i
      r.1 ++ insertPlannerDeps idMap genId rest r.2

/-- `generateAndSavePlan(options)`.  The plan status is set to `planning`,
then the LLM call runs (its outcome — parsed result or thrown error — is the
`plannerOutcome` argument; project-context gathering is I/O outside this
model), then levels are computed, the tasks and dependency edges are
persisted in two passes, and the plan status is set to `ready`.  Any failure
propagates without touching the plan status again. -/
def generateAndSavePlan (store : PlannerStore) (plan : Plan)
    (plannerOutcome : Except String PlanningResult) (genId : Nat → String) :
    PlannerStore × Except String Unit :=
  let store1 : PlannerStore :=
    { store with plans := updatePlanStatus store.plans plan.id "planning" }
  match plannerOutcome with
  | .error e => (store1, .error e)
  | .ok planResult =>
    match calculateTaskLevels planResult.tasks with
    | .error e => (store1, .error e)
    | .ok levels =>
      let r := insertPlannerTasks plan levels genId planResult.tasks 0
      let newDeps := insertPlannerDeps r.2 genId planResult.tasks planResult.tasks.length
      ({ plans := updatePlanStatus store1.plans plan.id "ready"
         tasks := store1.tasks ++ r.1
         taskDeps := store1.taskDeps ++ newDeps },
       .ok ())

/-! ## Clock helper (`now()` in `src/utils/id.ts`)

`now()` is `new Date().toISOString()`: the current wall-clock reading in
milliseconds since the Unix epoch, rendered as `YYYY-MM-DDTHH:mm:ss.sssZ`.
The ambient clock becomes an explicit argument: one `Nat` reading per call.
`civilFromDays` is the standard days-to-Gregorian conversion that
`toISOString` performs (valid for readings at or after the epoch). -/

def pad (w : Nat) (n : Nat) : String :=
  let s := toString n
  ⟨List.replicate (w - s.length) '0'⟩ ++ s

def civilFromDays (days : Nat) : Nat × Nat × Nat :=
  let z := days + 719468
  let era := z / 146097
  let doe := z % 146097
  let yoe := (doe - doe / 1460 + doe / 36524 - doe / 146096) / 365
  let y := yoe + era * 400
  let doy := doe - (365 * yoe + yoe / 4 - yoe / 100)
  let mp := (5 * doy + 2) / 153
  let d := doy - (153 * mp + 2) / 5 + 1
  let m := if mp < 10 then mp + 3 else mp - 9
  (if m ≤ 2 then y + 1 else y, m, d)

def isoOfMillis (ms : Nat) : String :=
  let msOfDay := ms % 86400000
  let hh := msOfDay / 3600000
  let mm := msOfDay % 3600000 / 60000
  let ss := msOfDay % 60000 / 1000
  let mmm := msOfDay % 1000
  let (y, mo, d) := civilFromDays (ms / 86400000)
  pad 4 y ++ "-" ++ pad 2 mo ++ "-" ++ pad 2 d ++ "T" ++ pad 2 hh ++ ":" ++
    pad 2 mm ++ ":" ++ pad 2 ss ++ "." ++ pad 3 mmm ++ "Z"

/-- `now()`: render the current wall-clock reading.  The helper keeps no
state between calls. -/
def now (wallMs : Nat) : String := isoOfMillis wallMs

/-- A run of successive `now()` calls, one wall-clock reading per call. -/
def runNow (readings : List Nat) : List String := readings.map now

/-! # Theorems -/

/-! ## Concrete inputs used to exercise the graph builder -/

/-- A task row carrying only the fields the graph builder reads. -/
def gTask (id : String) : Task :=
  ⟨id, "p1", id, "", "pending", 0, none, none, none, none⟩

/-- A dependency edge row: `taskId` depends on `dependsOnId`. -/
def gDep (taskId dependsOnId : String) : TaskDep :=
  ⟨taskId ++ dependsOnId, taskId, dependsOnId⟩

/-- Diamond: `B` and `C` depend on `A`; `D` depends on `B` and `C`. -/
def diamondTasks : List Task := [gTask "A", gTask "B", gTask "C", gTask "D"]

def diamondDeps : List TaskDep :=
  [gDep "B" "A", gDep "C" "A", gDep "D" "B", gDep "D" "C"]

/-- The graph the builder produces on the diamond (the build succeeds there,
as is proved by evaluation where this is used). -/
def diamondGraph : DependencyGraph :=
  (buildDependencyGraph diamondTasks diamondDeps).toOption.getD ⟨[], [], 0⟩

/-- The node of task `D` in the diamond graph. -/
def diamondNodeD : TaskNode :=
  (lookupNode diamondGraph.nodes "D").getD ⟨gTask "D", [], [], 0⟩

/-- Three-cycle: `A` depends on `B`, `B` on `C`, `C` on `A`. -/
def cycleTasks : List Task := [gTask "A", gTask "B", gTask "C"]

def cycleDeps : List TaskDep := [gDep "A" "B", gDep "B" "C", gDep "C" "A"]

/-- An available worktree row of project `pr`. -/
def c4Wt (i name : String) : Worktree := ⟨i, "pr", name, "", none, "available", none⟩

def c4Ctx : SchedulerContext := ⟨"p1", "pr", "", "main", 2⟩

/-- The scheduler state obtained by initialising on the diamond plan with no
edges (all four tasks ready). -/
def c4St : SchedulerState :=
  (initializeScheduler diamondTasks [] c4Ctx).toOption.getD ⟨⟨[], [], 0⟩, [], [], []⟩

def c4Wts : List Worktree := [c4Wt "w1" "wt0", c4Wt "w2" "wt1"]

/-! ## Association-list and node-map lemmas -/

theorem find?_map_fst {β : Type} (m : List (String × β))
    (g : String × β → String × β) (hg : ∀ p, (g p).1 = p.1) (q : String) :
    (m.map g).find? (fun p => p.1 == q) =
      (m.find? (fun p => p.1 == q)).map g := by
  induction m with
  | nil => rfl
  | cons p rest ih =>
    by_cases h : (p.1 == q) = true
    · simp [List.find?_cons, hg, h]
    · simp [List.find?_cons, hg, h, ih]

theorem lookupA_modifyA {β : Type} (m : List (String × β)) (k x : String)
    (f : β → β) :
    lookupA (modifyA m k f) x =
      if x = k then (lookupA m k).map f else lookupA m x := by
  unfold lookupA modifyA
  rw [find?_map_fst _ _ (fun p => by by_cases h : (p.1 == k) = true <;> simp [h])]
  cases hfind : m.find? (fun p => p.1 == x) with
  | none =>
    by_cases hxk : x = k
    · subst hxk
      rw [hfind]
      simp
    · simp [hxk]
  | some p =>
    have hpx : p.1 = x := by
      have := List.find?_some hfind
      simpa using this
    by_cases hxk : x = k
    · subst hxk
      rw [hfind]
      simp [hpx]
    · simp [hpx, hxk]

theorem lookupA_mem {β : Type} {m : List (String × β)} {k : String} {v : β}
    (h : lookupA m k = some v) : (k, v) ∈ m := by
  simp only [lookupA, Option.map_eq_some'] at h
  obtain ⟨p, hp, hv⟩ := h
  have hmem := List.mem_of_find?_eq_some hp
  have hk := List.find?_some hp
  simp only [beq_iff_eq] at hk
  have : p = (k, v) := by
    cases p
    simp_all
  rwa [this] at hmem

theorem lookupNode_setLevel (m : NodeMap) (id : String) (lvl : Int) (x : String) :
    lookupNode (setLevel m id lvl) x =
      if x = id then (lookupNode m id).map (fun n => { n with level := lvl })
      else lookupNode m x :=
  lookupA_modifyA m id x _

theorem keysOf_eraseLv (m : NodeMap) : keysOf (eraseLv m) = keysOf m := by
  simp [keysOf, eraseLv, List.map_map, Function.comp]

theorem lookupA_map_pair {β γ : Type} (m : List (String × β)) (f : β → γ)
    (x : String) :
    lookupA (m.map (fun p => (p.1, f p.2))) x = (lookupA m x).map f := by
  induction m with
  | nil => rfl
  | cons p rest ih =>
    unfold lookupA at ih ⊢
    by_cases h : (p.1 == x) = true
    · simp [List.find?_cons, h]
    · simp only [List.map_cons, List.find?_cons, h]
      simpa [h] using ih

theorem lookupNode_eraseLv (m : NodeMap) (x : String) :
    lookupNode (eraseLv m) x =
      (lookupNode m x).map (fun n => { n with level := 0 }) := by
  unfold lookupNode eraseLv
  exact lookupA_map_pair m (fun n => { n with level := 0 }) x

theorem eraseLv_setLevel (m : NodeMap) (id : String) (lvl : Int) :
    eraseLv (setLevel m id lvl) = eraseLv m := by
  simp only [eraseLv, setLevel, modifyA, List.map_map]
  apply List.map_congr_left
  intro p _
  by_cases h : (p.1 == id) = true
  · simp only [Function.comp_apply, h, if_true]
  · simp only [Function.comp_apply, h]
    rfl

theorem keysOf_congr {m m' : NodeMap} (h : eraseLv m = eraseLv m') :
    keysOf m = keysOf m' := by
  rw [← keysOf_eraseLv m, ← keysOf_eraseLv m', h]

theorem lookup_erased_congr {m m' : NodeMap} (h : eraseLv m = eraseLv m')
    (x : String) :
    (lookupNode m x).map (fun n => { n with level := 0 }) =
      (lookupNode m' x).map (fun n => { n with level := 0 }) := by
  rw [← lookupNode_eraseLv, ← lookupNode_eraseLv, h]

theorem depsOfN_congr {m m' : NodeMap} (h : eraseLv m = eraseLv m') (a : String) :
    depsOfN m a = depsOfN m' a := by
  unfold depsOfN
  have h2 := lookup_erased_congr h a
  cases hm : lookupNode m a with
  | none =>
    rw [hm] at h2
    cases hm' : lookupNode m' a with
    | none => rfl
    | some n' =>
      rw [hm'] at h2
      exact absurd h2 (by simp)
  | some n =>
    rw [hm] at h2
    cases hm' : lookupNode m' a with
    | none =>
      rw [hm'] at h2
      exact absurd h2 (by simp)
    | some n' =>
      rw [hm'] at h2
      have hdeps : n.dependencies = n'.dependencies := by
        have := congrArg (fun o : Option TaskNode =>
          (o.map (fun nn => nn.dependencies)).getD []) h2
        simpa using this
      simp [hdeps]

theorem depRel_congr {m m' : NodeMap} (h : eraseLv m = eraseLv m') :
    depRel m = depRel m' := by
  funext a b
  unfold depRel
  rw [depsOfN_congr h]

theorem lookupA_isSome_iff {β : Type} (m : List (String × β)) (k : String) :
    (∃ v, lookupA m k = some v) ↔ k ∈ m.map (fun p => p.1) := by
  unfold lookupA
  constructor
  · rintro ⟨v, hv⟩
    simp only [Option.map_eq_some'] at hv
    obtain ⟨p, hp, -⟩ := hv
    have hmem := List.mem_of_find?_eq_some hp
    have hk := List.find?_some hp
    simp only [beq_iff_eq] at hk
    rw [← hk]
    exact List.mem_map_of_mem _ hmem
  · intro hk
    simp only [List.mem_map] at hk
    obtain ⟨p, hp, hk⟩ := hk
    have : (m.find? (fun p => p.1 == k)).isSome := by
      rw [List.find?_isSome]
      exact ⟨p, hp, by simp [hk]⟩
    obtain ⟨q, hq⟩ := Option.isSome_iff_exists.mp this
    exact ⟨q.2, by rw [hq]; rfl⟩

theorem mem_keysOf_of_lookup {m : NodeMap} {id : String} {n : TaskNode}
    (h : lookupNode m id = some n) : id ∈ keysOf m :=
  (lookupA_isSome_iff m id).mp ⟨n, h⟩

theorem lookup_of_mem_keysOf {m : NodeMap} {id : String}
    (h : id ∈ keysOf m) : ∃ n, lookupNode m id = some n :=
  (lookupA_isSome_iff m id).mpr h

theorem depsClosed_congr {m m' : NodeMap} (heq : eraseLv m = eraseLv m')
    (h : DepsClosed m) : DepsClosed m' := by
  intro p' hp' d hd
  have hmem : (p'.1, { p'.2 with level := 0 }) ∈ eraseLv m' :=
    List.mem_map_of_mem _ hp'
  rw [← heq] at hmem
  simp only [eraseLv, List.mem_map] at hmem
  obtain ⟨p, hp, hpe⟩ := hmem
  rw [← keysOf_congr heq]
  have h2 : p.2.dependencies = p'.2.dependencies := by
    have := congrArg (fun q : String × TaskNode => q.2.dependencies) hpe
    simpa using this
  exact h p hp d (h2 ▸ hd)

/-! ## `foldl max` facts -/

theorem le_foldl_max (l : List Int) (a : Int) : a ≤ l.foldl max a := by
  induction l generalizing a with
  | nil => exact le_refl a
  | cons b rest ih => exact le_trans (le_max_left a b) (ih (max a b))

theorem mem_le_foldl_max (l : List Int) (a : Int) :
    ∀ x ∈ l, x ≤ l.foldl max a := by
  induction l generalizing a with
  | nil => intro x hx; simp at hx
  | cons b rest ih =>
    intro x hx
    rcases List.mem_cons.mp hx with h | h
    · subst h
      exact le_trans (le_max_right a x) (le_foldl_max rest (max a x))
    · exact ih (max a b) x h

theorem foldl_max_mem (l : List Int) (a : Int) :
    l.foldl max a = a ∨ l.foldl max a ∈ l := by
  induction l generalizing a with
  | nil => exact Or.inl rfl
  | cons b rest ih =>
    rcases ih (max a b) with h | h
    · rcases max_choice a b with hm | hm
      · exact Or.inl (by rw [List.foldl_cons, h, hm])
      · exact Or.inr (by rw [List.foldl_cons, h, hm]; exact List.mem_cons_self b rest)
    · exact Or.inr (List.mem_cons_of_mem b h)


/-! ## The DFS frame: what a successful `visit` may change -/

theorem gframe_rfl (anc : List String) (st : VisitSt) : GFrame anc st st :=
  ⟨rfl, fun _ hx => hx, fun _ _ => rfl, fun x hx hnx => absurd hx hnx⟩

theorem gframe_comp {anc : List String} {st1 st2 st3 : VisitSt}
    (h12 : GFrame anc st1 st2) (h23 : GFrame anc st2 st3) :
    GFrame anc st1 st3 := by
  obtain ⟨e12, v12, l12, a12⟩ := h12
  obtain ⟨e23, v23, l23, a23⟩ := h23
  refine ⟨e23.trans e12, fun x hx => v23 x (v12 x hx), ?_, ?_⟩
  · intro x hx
    have hx2 : x ∈ st2.visited ∨ x ∉ st3.visited := by
      rcases hx with hx | hx
      · exact Or.inl (v12 x hx)
      · exact Or.inr hx
    rw [l23 x hx2]
    apply l12
    rcases hx with hx | hx
    · exact Or.inl hx
    · exact Or.inr (fun hmem => hx (v23 x hmem))
  · intro x hx hnx
    by_cases hx2 : x ∈ st2.visited
    · exact a12 x hx2 hnx
    · exact a23 x hx hx2

theorem visitDeps_frame (vis : String → VisitSt → Except BuildErr (Int × VisitSt))
    (ancP : List String)
    (hvis : ∀ d s out, vis d s = .ok out → GFrame ancP s out.2) :
    ∀ (ds : List String) (st : VisitSt) (acc : Int) (out : Int × VisitSt),
      visitDepsWith vis ds st acc = .ok out → GFrame ancP st out.2 := by
  intro ds
  induction ds with
  | nil =>
    intro st acc out h
    simp only [visitDepsWith] at h
    injection h with h
    rw [← h]
    exact gframe_rfl ancP st
  | cons d rest ih =>
    intro st acc out h
    simp only [visitDepsWith] at h
    cases hv : vis d st with
    | error e =>
      rw [hv] at h
      exact absurd h (by simp)
    | ok p =>
      obtain ⟨l, st1⟩ := p
      rw [hv] at h
      exact gframe_comp (hvis d st (l, st1) hv) (ih st1 (max acc l) out h)

theorem visit_frame :
    ∀ (fuel : Nat) (nodeId : String) (anc : List String) (st : VisitSt)
      (out : Int × VisitSt),
      visit fuel nodeId anc st = .ok out → GFrame anc st out.2 := by
  intro fuel
  induction fuel with
  | zero =>
    intro nodeId anc st out h
    simp [visit] at h
  | succ fuel ih =>
    intro nodeId anc st out h
    rw [visit] at h
    by_cases h1 : nodeId ∈ anc
    · rw [if_pos h1] at h
      exact absurd h (by simp)
    · rw [if_neg h1] at h
      by_cases h2 : nodeId ∈ st.visited
      · rw [if_pos h2] at h
        injection h with h
        rw [← h]
        exact gframe_rfl anc st
      · rw [if_neg h2] at h
        cases hlk : lookupNode st.nodes nodeId with
        | none =>
          rw [hlk] at h
          injection h with h
          rw [← h]
          exact gframe_rfl anc st
        | some node =>
          rw [hlk] at h
          dsimp only [] at h
          cases hvd : visitDepsWith (fun d s => visit fuel d (nodeId :: anc) s)
              node.dependencies st (-1) with
          | error e =>
            rw [hvd] at h
            exact absurd h (by simp)
          | ok p =>
            obtain ⟨maxDep, st1⟩ := p
            rw [hvd] at h
            injection h with h
            rw [← h]
            have hfr : GFrame (nodeId :: anc) st st1 :=
              visitDeps_frame _ (nodeId :: anc)
                (fun d s o hh => ih d (nodeId :: anc) s o hh)
                node.dependencies st (-1) (maxDep, st1) hvd
            refine ⟨?_, ?_, ?_, ?_⟩
            · rw [show (⟨setLevel st1.nodes nodeId (maxDep + 1),
                  nodeId :: st1.visited⟩ : VisitSt).nodes =
                  setLevel st1.nodes nodeId (maxDep + 1) from rfl]
              rw [eraseLv_setLevel]
              exact hfr.1
            · intro x hx
              exact List.mem_cons_of_mem _ (hfr.2.1 x hx)
            · intro x hx
              have hxne : x ≠ nodeId := by
                rcases hx with hx | hx
                · intro he
                  exact h2 (he ▸ hx)
                · intro he
                  exact hx (he ▸ List.mem_cons_self _ _)
              show lookupNode (setLevel st1.nodes nodeId (maxDep + 1)) x = _
              rw [lookupNode_setLevel, if_neg hxne]
              apply hfr.2.2.1
              rcases hx with hx | hx
              · exact Or.inl hx
              · exact Or.inr (fun hmem => hx (List.mem_cons_of_mem _ hmem))
            · intro x hx hnx
              rcases List.mem_cons.mp hx with hx | hx
              · exact hx ▸ h1
              · exact fun hmem =>
                  hfr.2.2.2 x hx hnx (List.mem_cons_of_mem _ hmem)

/-! ## Fuel sufficiency: the DFS never exhausts `nodes.length + 1` fuel -/

theorem visitDeps_no_fuel
    (vis : String → VisitSt → Except BuildErr (Int × VisitSt)) (K : List String)
    (hframe : ∀ d s out, vis d s = .ok out →
      eraseLv out.2.nodes = eraseLv s.nodes)
    (hnf : ∀ d s, keysOf s.nodes = K → vis d s ≠ .error .fuel) :
    ∀ (ds : List String) (st : VisitSt) (acc : Int),
      keysOf st.nodes = K → visitDepsWith vis ds st acc ≠ .error .fuel := by
  intro ds
  induction ds with
  | nil =>
    intro st acc hk h
    simp [visitDepsWith] at h
  | cons d rest ih =>
    intro st acc hk h
    simp only [visitDepsWith] at h
    cases hv : vis d st with
    | error e =>
      rw [hv] at h
      have he : e = .fuel := by
        injection h
      exact hnf d st hk (by rw [hv, he])
    | ok p =>
      obtain ⟨l, st1⟩ := p
      rw [hv] at h
      have hk1 : keysOf st1.nodes = K := by
        rw [← hk]
        exact keysOf_congr (hframe d st (l, st1) hv)
      exact ih st1 (max acc l) hk1 h

theorem visit_no_fuel :
    ∀ (fuel : Nat) (id : String) (anc : List String) (st : VisitSt),
      anc.Nodup → (∀ a ∈ anc, a ∈ keysOf st.nodes) →
      (keysOf st.nodes).length < anc.length + fuel →
      visit fuel id anc st ≠ .error .fuel := by
  intro fuel
  induction fuel with
  | zero =>
    intro id anc st hnd hsub hlt h
    have hle : anc.length ≤ (keysOf st.nodes).length := by
      have h1 : anc.toFinset.card = anc.length := List.toFinset_card_of_nodup hnd
      have h2 : anc.toFinset ⊆ (keysOf st.nodes).toFinset := by
        intro x hx
        rw [List.mem_toFinset] at hx ⊢
        exact hsub x hx
      calc anc.length = anc.toFinset.card := h1.symm
        _ ≤ (keysOf st.nodes).toFinset.card := Finset.card_le_card h2
        _ ≤ (keysOf st.nodes).length := List.toFinset_card_le _
    omega
  | succ fuel ih =>
    intro id anc st hnd hsub hlt h
    rw [visit] at h
    by_cases h1 : id ∈ anc
    · rw [if_pos h1] at h
      have : BuildErr.cycle id = BuildErr.fuel := by injection h
      exact BuildErr.noConfusion this
    · rw [if_neg h1] at h
      by_cases h2 : id ∈ st.visited
      · rw [if_pos h2] at h
        exact absurd h (by simp)
      · rw [if_neg h2] at h
        cases hlk : lookupNode st.nodes id with
        | none =>
          rw [hlk] at h
          dsimp only [] at h
          exact absurd h (by simp)
        | some node =>
          rw [hlk] at h
          dsimp only [] at h
          cases hvd : visitDepsWith (fun d s => visit fuel d (id :: anc) s)
              node.dependencies st (-1) with
          | error e =>
            rw [hvd] at h
            have he : e = .fuel := by injection h
            subst he
            have hid : id ∈ keysOf st.nodes := mem_keysOf_of_lookup hlk
            refine visitDeps_no_fuel _ (keysOf st.nodes)
              (fun d s o hh => (visit_frame fuel d (id :: anc) s o hh).1)
              (fun d s hk => ?_) node.dependencies st (-1) rfl hvd
            apply ih d (id :: anc) s
            · exact List.nodup_cons.mpr ⟨h1, hnd⟩
            · intro a ha
              rw [hk]
              rcases List.mem_cons.mp ha with ha | ha
              · exact ha ▸ hid
              · exact hsub a ha
            · rw [hk]
              simp only [List.length_cons]
              omega
          | ok p =>
            obtain ⟨maxDep, st1⟩ := p
            rw [hvd] at h
            exact absurd h (by simp)

/-! ## The DFS invariant: visited nodes satisfy the level recurrence -/

theorem lvlOf_nonneg {m : NodeMap} (h : LvNonneg m) (d : String) :
    0 ≤ lvlOf m d := by
  unfold lvlOf
  cases hl : lookupNode m d with
  | none => simp
  | some n =>
    exact h (d, n) (lookupA_mem hl)

theorem lvlOf_eq_zero_of_not_mem {m : NodeMap} {d : String}
    (h : d ∉ keysOf m) : lvlOf m d = 0 := by
  unfold lvlOf
  cases hl : lookupNode m d with
  | none => simp
  | some n => exact absurd (mem_keysOf_of_lookup hl) h

theorem visit_ok_not_anc {fuel : Nat} {id : String} {anc : List String}
    {st : VisitSt} {out : Int × VisitSt}
    (h : visit fuel id anc st = .ok out) : id ∉ anc := by
  cases fuel with
  | zero => simp [visit] at h
  | succ fuel =>
    rw [visit] at h
    by_cases h1 : id ∈ anc
    · rw [if_pos h1] at h
      exact absurd h (by simp)
    · exact h1

theorem visitDeps_ok_not_anc
    (vis : String → VisitSt → Except BuildErr (Int × VisitSt))
    (ancP : List String)
    (hv : ∀ d s out, vis d s = .ok out → d ∉ ancP) :
    ∀ (ds : List String) (st : VisitSt) (acc : Int) (out : Int × VisitSt),
      visitDepsWith vis ds st acc = .ok out → ∀ d ∈ ds, d ∉ ancP := by
  intro ds
  induction ds with
  | nil => intro st acc out _ d hd; simp at hd
  | cons d0 rest ih =>
    intro st acc out h d hd
    simp only [visitDepsWith] at h
    cases hv0 : vis d0 st with
    | error e =>
      rw [hv0] at h
      exact absurd h (by simp)
    | ok p =>
      obtain ⟨l, st1⟩ := p
      rw [hv0] at h
      rcases List.mem_cons.mp hd with hd | hd
      · exact hd ▸ hv d0 st (l, st1) hv0
      · exact ih st1 (max acc l) out h d hd

theorem visitDeps_good
    (vis : String → VisitSt → Except BuildErr (Int × VisitSt))
    (hvisG : ∀ d s out, vis d s = .ok out → GFrame [] s out.2)
    (hgood : ∀ d s out, DepsClosed s.nodes → LvNonneg s.nodes → GoodSt s →
      vis d s = .ok out →
      GoodSt out.2 ∧ LvNonneg out.2.nodes ∧
      (d ∈ keysOf s.nodes → d ∈ out.2.visited) ∧
      out.1 = lvlOf out.2.nodes d) :
    ∀ (ds : List String) (st : VisitSt) (acc : Int) (out : Int × VisitSt),
      DepsClosed st.nodes → LvNonneg st.nodes → GoodSt st →
      visitDepsWith vis ds st acc = .ok out →
      GoodSt out.2 ∧ LvNonneg out.2.nodes ∧
      (∀ d ∈ ds, d ∈ keysOf st.nodes → d ∈ out.2.visited) ∧
      out.1 = (ds.map (fun d => lvlOf out.2.nodes d)).foldl max acc := by
  intro ds
  induction ds with
  | nil =>
    intro st acc out hdc hnn hg h
    simp only [visitDepsWith] at h
    injection h with h
    rw [← h]
    exact ⟨hg, hnn, fun d hd => absurd hd (List.not_mem_nil d), rfl⟩
  | cons d0 rest ih =>
    intro st acc out hdc hnn hg h
    simp only [visitDepsWith] at h
    cases hv0 : vis d0 st with
    | error e =>
      rw [hv0] at h
      exact absurd h (by simp)
    | ok p =>
      obtain ⟨l, st1⟩ := p
      rw [hv0] at h
      dsimp only [] at h
      obtain ⟨heq1, hvis1, hlk1, -⟩ := hvisG d0 st (l, st1) hv0
      obtain ⟨hg1, hnn1, hv1, hl1⟩ := hgood d0 st (l, st1) hdc hnn hg hv0
      have hl1' : l = lvlOf st1.nodes d0 := hl1
      have hdc1 : DepsClosed st1.nodes := depsClosed_congr heq1.symm hdc
      have hkeys1 : keysOf st1.nodes = keysOf st.nodes := keysOf_congr heq1
      obtain ⟨hgO, hnnO, hvO, hfoldO⟩ :=
        ih st1 (max acc l) out hdc1 hnn1 hg1 h
      obtain ⟨heqO, hvisO, hlkO, -⟩ :=
        visitDeps_frame vis [] hvisG rest st1 (max acc l) out h
      refine ⟨hgO, hnnO, ?_, ?_⟩
      · intro d hd hkd
        rcases List.mem_cons.mp hd with hd | hd
        · exact hd ▸ hvisO d0 (hv1 (hd ▸ hkd))
        · exact hvO d hd (by rw [hkeys1]; exact hkd)
      · rw [List.map_cons, List.foldl_cons, hfoldO]
        have hstable : l = lvlOf out.2.nodes d0 := by
          by_cases hkd : d0 ∈ keysOf st.nodes
          · have hd0v : d0 ∈ st1.visited := hv1 hkd
            have hlq := hlkO d0 (Or.inl hd0v)
            rw [hl1']
            unfold lvlOf
            rw [hlq]
          · have hk1 : d0 ∉ keysOf st1.nodes := by
              rw [hkeys1]
              exact hkd
            have hkO : d0 ∉ keysOf out.2.nodes := by
              rw [keysOf_congr heqO]
              exact hk1
            rw [hl1', lvlOf_eq_zero_of_not_mem hk1,
              lvlOf_eq_zero_of_not_mem hkO]
        rw [hstable]

theorem visit_good :
    ∀ (fuel : Nat) (id : String) (anc : List String) (st : VisitSt)
      (out : Int × VisitSt),
      DepsClosed st.nodes → LvNonneg st.nodes → GoodSt st →
      visit fuel id anc st = .ok out →
      GoodSt out.2 ∧ LvNonneg out.2.nodes ∧
      (id ∈ keysOf st.nodes → id ∈ out.2.visited) ∧
      out.1 = lvlOf out.2.nodes id := by
  intro fuel
  induction fuel with
  | zero =>
    intro id anc st out _ _ _ h
    simp [visit] at h
  | succ fuel ih =>
    intro id anc st out hdc hnn hg h
    rw [visit] at h
    by_cases h1 : id ∈ anc
    · rw [if_pos h1] at h
      exact absurd h (by simp)
    · rw [if_neg h1] at h
      by_cases h2 : id ∈ st.visited
      · rw [if_pos h2] at h
        injection h with h
        rw [← h]
        exact ⟨hg, hnn, fun _ => h2, rfl⟩
      · rw [if_neg h2] at h
        cases hlk : lookupNode st.nodes id with
        | none =>
          rw [hlk] at h
          dsimp only [] at h
          injection h with h
          rw [← h]
          refine ⟨hg, hnn, ?_, ?_⟩
          · intro hk
            obtain ⟨n, hn⟩ := lookup_of_mem_keysOf hk
            rw [hlk] at hn
            exact Option.noConfusion hn
          · show (0 : Int) = lvlOf st.nodes id
            unfold lvlOf
            rw [hlk]
            rfl
        | some node =>
          rw [hlk] at h
          dsimp only [] at h
          cases hvd : visitDepsWith (fun d s => visit fuel d (id :: anc) s)
              node.dependencies st (-1) with
          | error e =>
            rw [hvd] at h
            exact absurd h (by simp)
          | ok p =>
            obtain ⟨maxDep, st1⟩ := p
            rw [hvd] at h
            dsimp only [] at h
            injection h with h
            rw [← h]
            have hvisG : ∀ d s o, visit fuel d (id :: anc) s = .ok o →
                GFrame [] s o.2 := by
              intro d s o hh
              obtain ⟨e1, e2, e3, -⟩ := visit_frame fuel d (id :: anc) s o hh
              exact ⟨e1, e2, e3, fun x _ _ => List.not_mem_nil x⟩
            obtain ⟨hg1, hnn1, hvall, hfold⟩ :=
              visitDeps_good _ hvisG
                (fun d s o a b c hh => ih d (id :: anc) s o a b c hh)
                node.dependencies st (-1) (maxDep, st1) hdc hnn hg hvd
            have hfold' : maxDep =
                (node.dependencies.map (fun d => lvlOf st1.nodes d)).foldl
                  max (-1) := hfold
            obtain ⟨heqF, hvisF, hlkF, hancF⟩ :=
              visitDeps_frame _ (id :: anc)
                (fun d s o hh => visit_frame fuel d (id :: anc) s o hh)
                node.dependencies st (-1) (maxDep, st1) hvd
            have hid1 : id ∉ st1.visited := by
              intro hmem
              by_cases hin : id ∈ st.visited
              · exact h2 hin
              · exact hancF id hmem hin (List.mem_cons_self id anc)
            have hlkid : lookupNode st1.nodes id = some node := by
              have := hlkF id (Or.inr hid1)
              rw [this]
              exact hlk
            have hdne : ∀ d ∈ node.dependencies, d ≠ id := by
              intro d hd he
              have := visitDeps_ok_not_anc _ (id :: anc)
                (fun d s o hh => visit_ok_not_anc hh)
                node.dependencies st (-1) (maxDep, st1) hvd d hd
              exact this (he ▸ List.mem_cons_self id anc)
            have hdkeys : ∀ d ∈ node.dependencies, d ∈ keysOf st.nodes :=
              fun d hd => hdc (id, node) (lookupA_mem hlk) d hd
            have hmaxnn : -1 ≤ maxDep := by
              rw [hfold']
              exact le_foldl_max _ _
            refine ⟨?_, ?_, ?_, ?_⟩
            · intro x hx
              rcases List.mem_cons.mp hx with hx | hx
              · subst hx
                refine ⟨{ node with level := maxDep + 1 }, ?_, ?_, ?_⟩
                · show lookupNode (setLevel st1.nodes x (maxDep + 1)) x = _
                  rw [lookupNode_setLevel, if_pos rfl, hlkid]
                  rfl
                · intro d hd
                  exact List.mem_cons_of_mem _ (hvall d hd (hdkeys d hd))
                · have hmc :
                      (node.dependencies.map
                        (fun d => lvlOf (setLevel st1.nodes x (maxDep + 1)) d)) =
                      node.dependencies.map (fun d => lvlOf st1.nodes d) := by
                    apply List.map_congr_left
                    intro d hd
                    unfold lvlOf
                    rw [lookupNode_setLevel, if_neg (hdne d hd)]
                  dsimp only []
                  rw [hmc, ← hfold']
              · obtain ⟨n, hlx, hdx, hrx⟩ := hg1 x hx
                have hxne : x ≠ id := fun he => hid1 (he ▸ hx)
                refine ⟨n, ?_, ?_, ?_⟩
                · show lookupNode (setLevel st1.nodes id (maxDep + 1)) x = some n
                  rw [lookupNode_setLevel, if_neg hxne]
                  exact hlx
                · intro d hd
                  exact List.mem_cons_of_mem _ (hdx d hd)
                · rw [hrx]
                  have hmc :
                      (n.dependencies.map
                        (fun d => lvlOf (setLevel st1.nodes id (maxDep + 1)) d)) =
                      n.dependencies.map (fun d => lvlOf st1.nodes d) := by
                    apply List.map_congr_left
                    intro d hd
                    have hdne' : d ≠ id := fun he => hid1 (he ▸ hdx d hd)
                    unfold lvlOf
                    rw [lookupNode_setLevel, if_neg hdne']
                  rw [hmc]
            · intro p hp
              show 0 ≤ p.2.level
              simp only [setLevel, modifyA, List.mem_map] at hp
              obtain ⟨q, hq, hqe⟩ := hp
              by_cases hqid : (q.1 == id) = true
              · rw [if_pos hqid] at hqe
                rw [← hqe]
                show (0 : Int) ≤ maxDep + 1
                omega
              · rw [if_neg hqid] at hqe
                rw [← hqe]
                exact hnn1 q hq
            · intro _
              exact List.mem_cons_self id st1.visited
            · show maxDep + 1 = lvlOf (setLevel st1.nodes id (maxDep + 1)) id
              unfold lvlOf
              rw [lookupNode_setLevel, if_pos rfl, hlkid]
              rfl

/-! ## Cycle classification: a thrown error names a task on a real cycle -/

theorem chain'_to_transGen {α : Type} (R : α → α → Prop) :
    ∀ (l : List α) (x y : α), List.Chain' R (x :: l) → y ∈ l →
      Relation.TransGen R x y := by
  intro l
  induction l with
  | nil =>
    intro x y _ hy
    simp at hy
  | cons z rest ih =>
    intro x y hch hy
    have hxz : R x z := (List.chain'_cons.mp hch).1
    have hch' : List.Chain' R (z :: rest) := (List.chain'_cons.mp hch).2
    rcases List.mem_cons.mp hy with hy | hy
    · exact hy ▸ Relation.TransGen.single hxz
    · exact Relation.TransGen.head hxz (ih z y hch' hy)

theorem visitDeps_cycle
    (vis : String → VisitSt → Except BuildErr (Int × VisitSt)) (M : NodeMap)
    (P : String → Prop)
    (hframe : ∀ d s out, vis d s = .ok out →
      eraseLv out.2.nodes = eraseLv s.nodes)
    (hvisC : ∀ d s e, P d → eraseLv s.nodes = eraseLv M → vis d s = .error e →
      e = .fuel ∨ ∃ c, e = .cycle c ∧ Relation.TransGen (depRel M) c c) :
    ∀ (ds : List String) (st : VisitSt) (acc : Int) (e : BuildErr),
      (∀ d ∈ ds, P d) → eraseLv st.nodes = eraseLv M →
      visitDepsWith vis ds st acc = .error e →
      e = .fuel ∨ ∃ c, e = .cycle c ∧ Relation.TransGen (depRel M) c c := by
  intro ds
  induction ds with
  | nil =>
    intro st acc e _ _ h
    simp [visitDepsWith] at h
  | cons d rest ih =>
    intro st acc e hP heq h
    simp only [visitDepsWith] at h
    cases hv : vis d st with
    | error e' =>
      rw [hv] at h
      injection h with hh
      exact hh ▸ hvisC d st e' (hP d (List.mem_cons_self d rest)) heq hv
    | ok p =>
      obtain ⟨l, st1⟩ := p
      rw [hv] at h
      exact ih st1 (max acc l) e (fun x hx => hP x (List.mem_cons_of_mem d hx))
        ((hframe d st (l, st1) hv).trans heq) h

theorem visit_cycle_err (M : NodeMap) :
    ∀ (fuel : Nat) (id : String) (anc : List String) (st : VisitSt)
      (e : BuildErr),
      eraseLv st.nodes = eraseLv M →
      List.Chain' (fun x y => depRel M y x) (id :: anc) →
      visit fuel id anc st = .error e →
      e = .fuel ∨ ∃ c, e = .cycle c ∧ Relation.TransGen (depRel M) c c := by
  intro fuel
  induction fuel with
  | zero =>
    intro id anc st e _ _ h
    have hh : BuildErr.fuel = e := by
      injection (show Except.error BuildErr.fuel = Except.error e from h)
    exact Or.inl hh.symm
  | succ fuel ih =>
    intro id anc st e heq hch h
    rw [visit] at h
    by_cases h1 : id ∈ anc
    · rw [if_pos h1] at h
      injection h with hh
      right
      refine ⟨id, hh.symm, ?_⟩
      have htg := chain'_to_transGen (fun x y => depRel M y x) anc id id hch h1
      exact Relation.transGen_swap.mp htg
    · rw [if_neg h1] at h
      by_cases h2 : id ∈ st.visited
      · rw [if_pos h2] at h
        exact absurd h (by simp)
      · rw [if_neg h2] at h
        cases hlk : lookupNode st.nodes id with
        | none =>
          rw [hlk] at h
          dsimp only [] at h
          exact absurd h (by simp)
        | some node =>
          rw [hlk] at h
          dsimp only [] at h
          cases hvd : visitDepsWith (fun d s => visit fuel d (id :: anc) s)
              node.dependencies st (-1) with
          | error e' =>
            rw [hvd] at h
            injection h with hh
            subst hh
            have hdepsM : ∀ d ∈ node.dependencies, d ∈ depsOfN M id := by
              intro d hd
              have h0 : depsOfN st.nodes id = node.dependencies := by
                unfold depsOfN
                rw [hlk]
                rfl
              rw [← depsOfN_congr heq, h0]
              exact hd
            refine visitDeps_cycle _ M (fun d => d ∈ depsOfN M id)
              (fun d s o hh => (visit_frame fuel d (id :: anc) s o hh).1)
              (fun d s e2 hPd hs herr => ?_)
              node.dependencies st (-1) e' hdepsM heq hvd
            refine ih d (id :: anc) s e2 hs ?_ herr
            exact List.chain'_cons.mpr ⟨hPd, hch⟩
          | ok p =>
            obtain ⟨maxDep, st1⟩ := p
            rw [hvd] at h
            dsimp only [] at h
            exact absurd h (by simp)

/-! ## The top-level `calculateLevels` loop -/

theorem calcLoop_ok :
    ∀ (ids : List String) (fuel : Nat) (st st' : VisitSt),
      calcLoop fuel ids st = .ok st' →
      DepsClosed st.nodes → LvNonneg st.nodes → GoodSt st →
      GoodSt st' ∧ LvNonneg st'.nodes ∧
      eraseLv st'.nodes = eraseLv st.nodes ∧
      (∀ x ∈ st.visited, x ∈ st'.visited) ∧
      (∀ id ∈ ids, id ∈ keysOf st.nodes → id ∈ st'.visited) := by
  intro ids
  induction ids with
  | nil =>
    intro fuel st st' h hdc hnn hg
    simp only [calcLoop] at h
    injection h with h
    rw [← h]
    exact ⟨hg, hnn, rfl, fun _ hx => hx, fun d hd => absurd hd (List.not_mem_nil d)⟩
  | cons id rest ih =>
    intro fuel st st' h hdc hnn hg
    simp only [calcLoop] at h
    by_cases h2 : id ∈ st.visited
    · rw [if_pos h2] at h
      obtain ⟨hg', hnn', heq', hvis', hall'⟩ := ih fuel st st' h hdc hnn hg
      refine ⟨hg', hnn', heq', hvis', ?_⟩
      intro x hx hkx
      rcases List.mem_cons.mp hx with hx | hx
      · exact hx ▸ hvis' id h2
      · exact hall' x hx hkx
    · rw [if_neg h2] at h
      cases hv : visit fuel id [] st with
      | error e =>
        rw [hv] at h
        exact absurd h (by simp)
      | ok p =>
        obtain ⟨l, st1⟩ := p
        rw [hv] at h
        obtain ⟨hg1, hnn1, hvk1, -⟩ := visit_good fuel id [] st (l, st1) hdc hnn hg hv
        obtain ⟨heq1, hvis1, -, -⟩ := visit_frame fuel id [] st (l, st1) hv
        have hdc1 : DepsClosed st1.nodes := depsClosed_congr heq1.symm hdc
        obtain ⟨hg', hnn', heq', hvis', hall'⟩ := ih fuel st1 st' h hdc1 hnn1 hg1
        refine ⟨hg', hnn', heq'.trans heq1, fun x hx => hvis' x (hvis1 x hx), ?_⟩
        intro x hx hkx
        rcases List.mem_cons.mp hx with hx | hx
        · exact hvis' x (hx ▸ hvk1 (hx ▸ hkx))
        · exact hall' x hx (by rw [keysOf_congr heq1]; exact hkx)

theorem calcLoop_err (M : NodeMap) :
    ∀ (ids : List String) (fuel : Nat) (st : VisitSt) (e : BuildErr),
      calcLoop fuel ids st = .error e →
      eraseLv st.nodes = eraseLv M →
      e = .fuel ∨ ∃ c, e = .cycle c ∧ Relation.TransGen (depRel M) c c := by
  intro ids
  induction ids with
  | nil =>
    intro fuel st e h _
    simp [calcLoop] at h
  | cons id rest ih =>
    intro fuel st e h heq
    simp only [calcLoop] at h
    by_cases h2 : id ∈ st.visited
    · rw [if_pos h2] at h
      exact ih fuel st e h heq
    · rw [if_neg h2] at h
      cases hv : visit fuel id [] st with
      | error e' =>
        rw [hv] at h
        injection h with hh
        exact hh ▸ visit_cycle_err M fuel id [] st e' heq (by simp) hv
      | ok p =>
        obtain ⟨l, st1⟩ := p
        rw [hv] at h
        exact ih fuel st1 e h
          ((visit_frame fuel id [] st (l, st1) hv).1.trans heq)

theorem calcLoop_no_fuel_error :
    ∀ (ids : List String) (fuel : Nat) (st : VisitSt),
      (keysOf st.nodes).length < fuel →
      calcLoop fuel ids st ≠ .error .fuel := by
  intro ids
  induction ids with
  | nil =>
    intro fuel st _ h
    simp [calcLoop] at h
  | cons id rest ih =>
    intro fuel st hlt h
    simp only [calcLoop] at h
    by_cases h2 : id ∈ st.visited
    · rw [if_pos h2] at h
      exact ih fuel st hlt h
    · rw [if_neg h2] at h
      cases hv : visit fuel id [] st with
      | error e =>
        rw [hv] at h
        have he : e = .fuel := by injection h
        exact visit_no_fuel fuel id [] st List.nodup_nil
          (fun a ha => absurd ha (List.not_mem_nil a))
          (by simpa using hlt) (by rw [hv, he])
      | ok p =>
        obtain ⟨l, st1⟩ := p
        rw [hv] at h
        have hk1 : keysOf st1.nodes = keysOf st.nodes :=
          keysOf_congr (visit_frame fuel id [] st (l, st1) hv).1
        exact ih fuel st1 (by rw [hk1]; exact hlt) h

/-! ## The node map built from the task and edge lists -/

theorem mem_setA {β : Type} {m : List (String × β)} {k : String} {v : β}
    {p : String × β} (h : p ∈ setA m k v) : p = (k, v) ∨ p ∈ m := by
  unfold setA at h
  by_cases hc : m.any (fun q => q.1 == k) = true
  · rw [if_pos hc] at h
    simp only [List.mem_map] at h
    obtain ⟨q, hq, hqe⟩ := h
    by_cases hqk : (q.1 == k) = true
    · rw [if_pos hqk] at hqe
      left
      rw [← hqe]
      simp only [beq_iff_eq] at hqk
      rw [hqk]
    · rw [if_neg hqk] at hqe
      exact Or.inr (hqe ▸ hq)
  · rw [if_neg hc] at h
    rcases List.mem_append.mp h with h | h
    · exact Or.inr h
    · simp only [List.mem_singleton] at h
      exact Or.inl h

theorem mem_modifyA {β : Type} {m : List (String × β)} {k : String} {f : β → β}
    {p : String × β} (h : p ∈ modifyA m k f) :
    ∃ q ∈ m, p = (if (q.1 == k) = true then (q.1, f q.2) else q) := by
  unfold modifyA at h
  simp only [List.mem_map] at h
  obtain ⟨q, hq, hqe⟩ := h
  exact ⟨q, hq, hqe.symm⟩

theorem keysOf_modifyA (m : NodeMap) (k : String) (f : TaskNode → TaskNode) :
    keysOf (modifyA m k f) = keysOf m := by
  unfold keysOf modifyA
  rw [List.map_map]
  apply List.map_congr_left
  intro p _
  by_cases h : p.1 = k <;> simp [h]

theorem initNodes_deps_nil (tasks : List Task) :
    ∀ p ∈ initNodes tasks, p.2.dependencies = [] ∧ p.2.level = 0 := by
  unfold initNodes
  suffices hgen : ∀ (ts : List Task) (acc : NodeMap),
      (∀ p ∈ acc, p.2.dependencies = [] ∧ p.2.level = 0) →
      ∀ p ∈ ts.foldl (fun m t => setA m t.id ⟨t, [], [], 0⟩) acc,
        p.2.dependencies = [] ∧ p.2.level = 0 by
    exact hgen tasks [] (fun p hp => absurd hp (List.not_mem_nil p))
  intro ts
  induction ts with
  | nil => intro acc hacc p hp; exact hacc p hp
  | cons t rest ih =>
    intro acc hacc p hp
    refine ih (setA acc t.id ⟨t, [], [], 0⟩) ?_ p hp
    intro q hq
    rcases mem_setA hq with hq | hq
    · rw [hq]
      exact ⟨rfl, rfl⟩
    · exact hacc q hq

theorem depsClosed_initNodes (tasks : List Task) :
    DepsClosed (initNodes tasks) := by
  intro p hp d hd
  rw [(initNodes_deps_nil tasks p hp).1] at hd
  exact absurd hd (List.not_mem_nil d)

theorem lvNonneg_initNodes (tasks : List Task) : LvNonneg (initNodes tasks) := by
  intro p hp
  rw [(initNodes_deps_nil tasks p hp).2]

theorem addDeps_closed_nonneg (tasks : List Task) (deps : List TaskDep) :
    DepsClosed (addDeps (initNodes tasks) deps) ∧
      LvNonneg (addDeps (initNodes tasks) deps) := by
  unfold addDeps
  suffices hgen : ∀ (ds : List TaskDep) (m : NodeMap),
      DepsClosed m → LvNonneg m →
      DepsClosed (ds.foldl _ m) ∧ LvNonneg (ds.foldl _ m) by
    exact hgen deps (initNodes tasks) (depsClosed_initNodes tasks)
      (lvNonneg_initNodes tasks)
  intro ds
  induction ds with
  | nil => intro m hdc hnn; exact ⟨hdc, hnn⟩
  | cons d rest ih =>
    intro m hdc hnn
    rw [List.foldl_cons]
    by_cases hc : ((lookupNode m d.taskId).isSome &&
        (lookupNode m d.dependsOnId).isSome) = true
    · rw [if_pos hc]
      simp only [Bool.and_eq_true, Option.isSome_iff_exists] at hc
      obtain ⟨⟨n1, hn1⟩, ⟨n2, hn2⟩⟩ := hc
      have hdep_mem : d.dependsOnId ∈ keysOf m := mem_keysOf_of_lookup hn2
      set m1 := modifyA m d.taskId
        (fun n => { n with dependencies := n.dependencies ++ [d.dependsOnId] })
        with hm1
      have hkeys1 : keysOf m1 = keysOf m := keysOf_modifyA m _ _
      have hdc1 : DepsClosed m1 := by
        intro p hp dd hdd
        obtain ⟨q, hq, hqe⟩ := mem_modifyA hp
        rw [hkeys1]
        by_cases hqk : (q.1 == d.taskId) = true
        · rw [if_pos hqk] at hqe
          rw [hqe] at hdd
          rcases List.mem_append.mp hdd with hdd | hdd
          · exact hdc q hq dd hdd
          · simp only [List.mem_singleton] at hdd
            exact hdd ▸ hdep_mem
        · rw [if_neg hqk] at hqe
          exact hdc q hq dd (hqe ▸ hdd)
      have hnn1 : LvNonneg m1 := by
        intro p hp
        obtain ⟨q, hq, hqe⟩ := mem_modifyA hp
        by_cases hqk : (q.1 == d.taskId) = true
        · rw [if_pos hqk] at hqe
          rw [hqe]
          exact hnn q hq
        · rw [if_neg hqk] at hqe
          exact hqe ▸ hnn q hq
      have hkeys2 : keysOf (modifyA m1 d.dependsOnId
          (fun n => { n with dependents := n.dependents ++ [d.taskId] })) =
          keysOf m1 := keysOf_modifyA m1 _ _
      have hdc2 : DepsClosed (modifyA m1 d.dependsOnId
          (fun n => { n with dependents := n.dependents ++ [d.taskId] })) := by
        intro p hp dd hdd
        obtain ⟨q, hq, hqe⟩ := mem_modifyA hp
        rw [hkeys2]
        by_cases hqk : (q.1 == d.dependsOnId) = true
        · rw [if_pos hqk] at hqe
          rw [hqe] at hdd
          exact hdc1 q hq dd hdd
        · rw [if_neg hqk] at hqe
          exact hdc1 q hq dd (hqe ▸ hdd)
      have hnn2 : LvNonneg (modifyA m1 d.dependsOnId
          (fun n => { n with dependents := n.dependents ++ [d.taskId] })) := by
        intro p hp
        obtain ⟨q, hq, hqe⟩ := mem_modifyA hp
        by_cases hqk : (q.1 == d.dependsOnId) = true
        · rw [if_pos hqk] at hqe
          rw [hqe]
          exact hnn1 q hq
        · rw [if_neg hqk] at hqe
          exact hqe ▸ hnn1 q hq
      exact ih _ hdc2 hnn2
    · rw [if_neg hc]
      exact ih m hdc hnn

theorem build_ok_props (tasks : List Task) (deps : List TaskDep)
    (g : DependencyGraph) (h : buildDependencyGraph tasks deps = .ok g) :
    ∃ vs : List String, GoodSt ⟨g.nodes, vs⟩ ∧
      (∀ id ∈ keysOf g.nodes, id ∈ vs) ∧ LvNonneg g.nodes ∧
      eraseLv g.nodes = eraseLv (addDeps (initNodes tasks) deps) := by
  simp only [buildDependencyGraph] at h
  cases hc : calcLoop ((addDeps (initNodes tasks) deps).length + 1)
      ((addDeps (initNodes tasks) deps).map (fun p => p.1))
      ⟨addDeps (initNodes tasks) deps, []⟩ with
  | error e =>
    rw [hc] at h
    exact absurd h (by simp)
  | ok st =>
    rw [hc] at h
    dsimp only [] at h
    injection h with h
    obtain ⟨hdc, hnn⟩ := addDeps_closed_nonneg tasks deps
    have hg0 : GoodSt ⟨addDeps (initNodes tasks) deps, []⟩ := by
      intro id hid
      exact absurd hid (List.not_mem_nil id)
    obtain ⟨hg, hnn', heq, -, hall⟩ :=
      calcLoop_ok ((addDeps (initNodes tasks) deps).map (fun p => p.1))
        ((addDeps (initNodes tasks) deps).length + 1)
        ⟨addDeps (initNodes tasks) deps, []⟩ st hc hdc hnn hg0
    refine ⟨st.visited, ?_, ?_, ?_, ?_⟩
    · rw [← h]
      exact hg
    · intro id hid
      rw [← h] at hid
      have hk : keysOf st.nodes = keysOf (addDeps (initNodes tasks) deps) :=
        keysOf_congr heq
      rw [hk] at hid
      exact hall id hid hid
    · rw [← h]
      exact hnn'
    · rw [← h]
      exact heq

theorem build_ok_level_rec (tasks : List Task) (deps : List TaskDep)
    (g : DependencyGraph) (h : buildDependencyGraph tasks deps = .ok g)
    (id : String) (n : TaskNode) (hlk : lookupNode g.nodes id = some n) :
    n.level =
      (n.dependencies.map (fun d => lvlOf g.nodes d)).foldl max (-1) + 1 := by
  obtain ⟨vs, hg, hall, -, -⟩ := build_ok_props tasks deps g h
  have hid : id ∈ vs := hall id (mem_keysOf_of_lookup hlk)
  obtain ⟨n', hlk', -, hlvl⟩ := hg id hid
  have hne : n = n' := by
    rw [hlk] at hlk'
    injection hlk'
  rw [hne]
  exact hlvl

theorem build_ok_edge_lt (tasks : List Task) (deps : List TaskDep)
    (g : DependencyGraph) (h : buildDependencyGraph tasks deps = .ok g) :
    ∀ a b, depRel (addDeps (initNodes tasks) deps) a b →
      lvlOf g.nodes b < lvlOf g.nodes a := by
  intro a b hab
  obtain ⟨vs, -, -, -, heq⟩ := build_ok_props tasks deps g h
  have hab' : depRel g.nodes a b := by
    rw [depRel_congr heq]
    exact hab
  unfold depRel depsOfN at hab'
  cases hlk : lookupNode g.nodes a with
  | none =>
    rw [hlk] at hab'
    simp at hab'
  | some n =>
    rw [hlk] at hab'
    simp only [Option.map_some', Option.getD_some] at hab'
    have hrec := build_ok_level_rec tasks deps g h a n hlk
    have hle : lvlOf g.nodes b ≤
        (n.dependencies.map (fun d => lvlOf g.nodes d)).foldl max (-1) :=
      mem_le_foldl_max _ _ _ (List.mem_map_of_mem _ hab')
    have hla : lvlOf g.nodes a = n.level := by
      unfold lvlOf
      rw [hlk]
      rfl
    rw [hla, hrec]
    omega

theorem transGen_implies_lt (f : String → Int) (r : String → String → Prop)
    (hmono : ∀ a b, r a b → f b < f a) :
    ∀ a b, Relation.TransGen r a b → f b < f a := by
  intro a b h
  induction h with
  | single h1 => exact hmono _ _ h1
  | tail _ h2 ih => exact lt_trans (hmono _ _ h2) ih

/-- **C1.**  For every task set and edge set the builder accepts, the level
of each node is `0` when it has no dependencies and `1 + max(level(d))` over
its dependencies `d` otherwise (the maximum is attained by one of the
dependencies and bounds them all); consequently along every recorded edge the
dependent's level strictly exceeds the dependency's level. -/
theorem c1_level_recurrence (tasks : List Task) (deps : List TaskDep)
    (g : DependencyGraph) (hok : buildDependencyGraph tasks deps = .ok g)
    (id : String) (n : TaskNode) (hlk : lookupNode g.nodes id = some n) :
    (n.dependencies = [] → n.level = 0) ∧
    (n.dependencies ≠ [] →
      ∃ d ∈ n.dependencies, n.level = 1 + lvlOf g.nodes d ∧
        ∀ d' ∈ n.dependencies, lvlOf g.nodes d' ≤ lvlOf g.nodes d) ∧
    (∀ d ∈ n.dependencies, lvlOf g.nodes d < n.level) := by
  have hrec := build_ok_level_rec tasks deps g hok id n hlk
  obtain ⟨vs, -, -, hnn, -⟩ := build_ok_props tasks deps g hok
  refine ⟨?_, ?_, ?_⟩
  · intro hd
    rw [hd] at hrec
    simpa using hrec
  · intro hd
    rcases foldl_max_mem (n.dependencies.map (fun d => lvlOf g.nodes d)) (-1)
        with hbase | hmem
    · exfalso
      obtain ⟨d0, hd0⟩ := List.exists_mem_of_ne_nil n.dependencies hd
      have h1 : lvlOf g.nodes d0 ≤
          (n.dependencies.map (fun d => lvlOf g.nodes d)).foldl max (-1) :=
        mem_le_foldl_max _ _ _ (List.mem_map_of_mem _ hd0)
      have h2 : (0 : Int) ≤ lvlOf g.nodes d0 := lvlOf_nonneg hnn d0
      omega
    · obtain ⟨d, hdmem, hdeq⟩ := List.mem_map.mp hmem
      refine ⟨d, hdmem, by omega, ?_⟩
      intro d' hd'
      have := mem_le_foldl_max
        (n.dependencies.map (fun x => lvlOf g.nodes x)) (-1)
        (lvlOf g.nodes d') (List.mem_map_of_mem _ hd')
      omega
  · intro d hd
    have := mem_le_foldl_max
      (n.dependencies.map (fun x => lvlOf g.nodes x)) (-1)
      (lvlOf g.nodes d) (List.mem_map_of_mem _ hd)
    omega

/-- Witness for `c1_level_recurrence` on the diamond `B,C → A`, `D → B,C`:
the builder succeeds and the recurrence holds at node `D` (whose level is
`2`). -/
theorem c1_level_recurrence_witness :
    (diamondNodeD.dependencies = [] → diamondNodeD.level = 0) ∧
    (diamondNodeD.dependencies ≠ [] →
      ∃ d ∈ diamondNodeD.dependencies,
        diamondNodeD.level = 1 + lvlOf diamondGraph.nodes d ∧
        ∀ d' ∈ diamondNodeD.dependencies,
          lvlOf diamondGraph.nodes d' ≤ lvlOf diamondGraph.nodes d) ∧
    (∀ d ∈ diamondNodeD.dependencies,
      lvlOf diamondGraph.nodes d < diamondNodeD.level) :=
  c1_level_recurrence diamondTasks diamondDeps diamondGraph (by decide)
    "D" diamondNodeD (by decide)

/-- **C2.**  Every error the builder raises is the circular-dependency error,
and it names a task that really lies on a dependency cycle; when the edge
relation has a cycle the build fails with that error, and when it is acyclic
the build succeeds.  (The builder reads nothing but its two arguments and on
failure returns only the error, so no store row changes state.) -/
theorem c2_cycle_detection (tasks : List Task) (deps : List TaskDep) :
    (∀ e, buildDependencyGraph tasks deps = .error e →
      ∃ c, e = .cycle c ∧
        Relation.TransGen (depRel (addDeps (initNodes tasks) deps)) c c) ∧
    ((∃ c, Relation.TransGen (depRel (addDeps (initNodes tasks) deps)) c c) →
      ∃ c, buildDependencyGraph tasks deps = .error (.cycle c)) ∧
    ((∀ c, ¬ Relation.TransGen (depRel (addDeps (initNodes tasks) deps)) c c) →
      ∃ g, buildDependencyGraph tasks deps = .ok g) := by
  have herr : ∀ e, buildDependencyGraph tasks deps = .error e →
      ∃ c, e = .cycle c ∧
        Relation.TransGen (depRel (addDeps (initNodes tasks) deps)) c c := by
    intro e he
    simp only [buildDependencyGraph] at he
    cases hc : calcLoop ((addDeps (initNodes tasks) deps).length + 1)
        ((addDeps (initNodes tasks) deps).map (fun p => p.1))
        ⟨addDeps (initNodes tasks) deps, []⟩ with
    | ok st =>
      rw [hc] at he
      exact absurd he (by simp)
    | error e' =>
      rw [hc] at he
      dsimp only [] at he
      have hee : e' = e := by injection he
      rcases calcLoop_err (addDeps (initNodes tasks) deps)
          ((addDeps (initNodes tasks) deps).map (fun p => p.1))
          ((addDeps (initNodes tasks) deps).length + 1)
          ⟨addDeps (initNodes tasks) deps, []⟩ e' hc rfl with hf | ⟨c, hcy, htg⟩
      · exfalso
        refine calcLoop_no_fuel_error
          ((addDeps (initNodes tasks) deps).map (fun p => p.1))
          ((addDeps (initNodes tasks) deps).length + 1)
          ⟨addDeps (initNodes tasks) deps, []⟩ ?_ (hf ▸ hc)
        unfold keysOf
        rw [List.length_map]
        exact Nat.lt_succ_self _
      · exact ⟨c, hee ▸ hcy, htg⟩
  refine ⟨herr, ?_, ?_⟩
  · rintro ⟨c, htg⟩
    cases hb : buildDependencyGraph tasks deps with
    | error e =>
      obtain ⟨c', hcy, -⟩ := herr e hb
      exact ⟨c', by rw [hcy]⟩
    | ok g =>
      exfalso
      exact lt_irrefl _ (transGen_implies_lt (fun x => lvlOf g.nodes x) _
        (build_ok_edge_lt tasks deps g hb) c c htg)
  · intro hacy
    cases hb : buildDependencyGraph tasks deps with
    | ok g => exact ⟨g, rfl⟩
    | error e =>
      obtain ⟨c', -, htg'⟩ := herr e hb
      exact absurd htg' (hacy c')

/-- Witness for `c2_cycle_detection` on the three-cycle `A → B → C → A`: the
cycle exists in the edge relation, so the build fails with the
circular-dependency error. -/
theorem c2_cycle_detection_witness :
    ∃ c, buildDependencyGraph cycleTasks cycleDeps = .error (.cycle c) := by
  apply (c2_cycle_detection cycleTasks cycleDeps).2.1
  refine ⟨"A", ?_⟩
  have h1 : depRel (addDeps (initNodes cycleTasks) cycleDeps) "A" "B" := by decide
  have h2 : depRel (addDeps (initNodes cycleTasks) cycleDeps) "B" "C" := by decide
  have h3 : depRel (addDeps (initNodes cycleTasks) cycleDeps) "C" "A" := by decide
  exact Relation.TransGen.head h1
    (Relation.TransGen.head h2 (Relation.TransGen.single h3))

/-! ## The store orderings are total preorders -/

theorem charsLE_total : ∀ as bs : List Char,
    charsLE as bs = true ∨ charsLE bs as = true := by
  intro as
  induction as with
  | nil => intro bs; exact Or.inl rfl
  | cons a as ih =>
    intro bs
    cases bs with
    | nil => exact Or.inr rfl
    | cons b bs =>
      by_cases h1 : a.toNat < b.toNat
      · left
        simp [charsLE, h1]
      · by_cases h2 : b.toNat < a.toNat
        · right
          simp [charsLE, h2]
        · rcases ih bs with h | h
          · left
            simp [charsLE, h1, h2, h]
          · right
            simp [charsLE, h1, h2, h]

theorem charsLE_trans : ∀ as bs cs : List Char,
    charsLE as bs = true → charsLE bs cs = true → charsLE as cs = true := by
  intro as
  induction as with
  | nil => intro bs cs _ _; rfl
  | cons a as ih =>
    intro bs cs h1 h2
    cases bs with
    | nil => exact absurd h1 (by simp [charsLE])
    | cons b bs =>
      cases cs with
      | nil => exact absurd h2 (by simp [charsLE])
      | cons c cs =>
        simp only [charsLE] at h1 h2 ⊢
        split_ifs at h1 h2 ⊢
        any_goals rfl
        all_goals try exact ih bs cs h1 h2
        all_goals (exfalso ; omega)

theorem strLE_total (s t : String) : strLE s t = true ∨ strLE t s = true :=
  charsLE_total s.toList t.toList

theorem strLE_trans (s t u : String) :
    strLE s t = true → strLE t u = true → strLE s u = true :=
  charsLE_trans s.toList t.toList u.toList

theorem taskLE_total (a b : Task) : taskLE a b = true ∨ taskLE b a = true := by
  unfold taskLE
  rcases lt_trichotomy a.level b.level with h | h | h
  · left
    simp [h]
  · rcases strLE_total a.id b.id with hs | hs
    · left
      simp [h, hs]
    · right
      simp [h, hs]
  · right
    simp [h]

theorem taskLE_trans (a b c : Task) :
    taskLE a b = true → taskLE b c = true → taskLE a c = true := by
  unfold taskLE
  intro h1 h2
  simp only [Bool.or_eq_true, Bool.and_eq_true, decide_eq_true_eq,
    beq_iff_eq] at h1 h2 ⊢
  rcases h1 with h1 | ⟨h1e, h1s⟩ <;> rcases h2 with h2 | ⟨h2e, h2s⟩
  · left; omega
  · left; omega
  · left; omega
  · right
    exact ⟨by omega, strLE_trans _ _ _ h1s h2s⟩

theorem wtLE_total (a b : Worktree) : wtLE a b = true ∨ wtLE b a = true :=
  strLE_total a.name b.name

theorem wtLE_trans (a b c : Worktree) :
    wtLE a b = true → wtLE b c = true → wtLE a c = true :=
  strLE_trans a.name b.name c.name

/-! ## The tasks carried by the graph nodes -/

theorem setA_of_not_mem {β : Type} (m : List (String × β)) (k : String) (v : β)
    (h : ∀ q ∈ m, q.1 ≠ k) : setA m k v = m ++ [(k, v)] := by
  unfold setA
  rw [if_neg]
  intro hc
  simp only [List.any_eq_true, beq_iff_eq] at hc
  obtain ⟨q, hq, hqe⟩ := hc
  exact h q hq hqe

theorem initNodes_eq (tasks : List Task) (h : (tasks.map Task.id).Nodup) :
    initNodes tasks =
      tasks.map (fun t => (t.id, (⟨t, [], [], 0⟩ : TaskNode))) := by
  unfold initNodes
  suffices hgen : ∀ (ts : List Task) (acc : NodeMap),
      (ts.map Task.id).Nodup →
      (∀ q ∈ acc, ∀ t ∈ ts, q.1 ≠ t.id) →
      ts.foldl (fun m t => setA m t.id ⟨t, [], [], 0⟩) acc =
        acc ++ ts.map (fun t => (t.id, ⟨t, [], [], 0⟩)) by
    simpa using hgen tasks [] h
      (fun q hq => absurd hq (List.not_mem_nil q))
  intro ts
  induction ts with
  | nil =>
    intro acc _ _
    simp
  | cons t rest ih =>
    intro acc hnd hdisj
    rw [List.map_cons, List.nodup_cons] at hnd
    have hdisj' : ∀ q ∈ acc ++ [(t.id, (⟨t, [], [], 0⟩ : TaskNode))],
        ∀ t' ∈ rest, q.1 ≠ t'.id := by
      intro q hq t' ht'
      rcases List.mem_append.mp hq with hq | hq
      · exact hdisj q hq t' (List.mem_cons_of_mem t ht')
      · simp only [List.mem_singleton] at hq
        rw [hq]
        intro hc
        have hc' : t.id = t'.id := hc
        have hmem : t'.id ∈ List.map Task.id rest :=
          List.mem_map_of_mem Task.id ht'
        rw [← hc'] at hmem
        exact hnd.1 hmem
    have hstep := ih (acc ++ [(t.id, (⟨t, [], [], 0⟩ : TaskNode))]) hnd.2 hdisj'
    rw [List.foldl_cons,
      setA_of_not_mem acc t.id ⟨t, [], [], 0⟩
        (fun q hq => hdisj q hq t (List.mem_cons_self t rest)),
      hstep]
    simp

theorem tasksOf_eraseLv (m : NodeMap) : tasksOf (eraseLv m) = tasksOf m := by
  unfold tasksOf eraseLv
  rw [List.map_map]
  rfl

theorem tasksOf_congr {m m' : NodeMap} (h : eraseLv m = eraseLv m') :
    tasksOf m = tasksOf m' := by
  rw [← tasksOf_eraseLv m, ← tasksOf_eraseLv m', h]

theorem tasksOf_modifyA (m : NodeMap) (k : String) (f : TaskNode → TaskNode)
    (hf : ∀ n, (f n).task = n.task) :
    tasksOf (modifyA m k f) = tasksOf m := by
  unfold tasksOf modifyA
  rw [List.map_map]
  apply List.map_congr_left
  intro p _
  by_cases h : p.1 = k
  · simp [h, hf]
  · simp [h]

theorem tasksOf_addDeps (m : NodeMap) (deps : List TaskDep) :
    tasksOf (addDeps m deps) = tasksOf m := by
  unfold addDeps
  induction deps generalizing m with
  | nil => rfl
  | cons d rest ih =>
    rw [List.foldl_cons]
    by_cases hc : ((lookupNode m d.taskId).isSome &&
        (lookupNode m d.dependsOnId).isSome) = true
    · rw [if_pos hc, ih,
        tasksOf_modifyA _ d.dependsOnId
          (fun n => { n with dependents := n.dependents ++ [d.taskId] })
          (fun n => rfl),
        tasksOf_modifyA _ d.taskId
          (fun n => { n with dependencies := n.dependencies ++ [d.dependsOnId] })
          (fun n => rfl)]
    · rw [if_neg hc, ih]

/-- The tasks held by the nodes of a successfully built graph are exactly the
input task list, in order (for duplicate-free task ids). -/
theorem graph_tasks (tasks : List Task) (deps : List TaskDep)
    (g : DependencyGraph) (h : buildDependencyGraph tasks deps = .ok g)
    (hnd : (tasks.map Task.id).Nodup) :
    g.nodes.map (fun p => p.2.task) = tasks := by
  obtain ⟨vs, -, -, -, heq⟩ := build_ok_props tasks deps g h
  have h1 : tasksOf g.nodes = tasksOf (addDeps (initNodes tasks) deps) :=
    tasksOf_congr heq
  rw [tasksOf_addDeps, initNodes_eq tasks hnd] at h1
  have h2 : tasksOf (tasks.map fun t => (t.id, (⟨t, [], [], 0⟩ : TaskNode))) =
      tasks.map (fun t => (t.id, t)) := by
    unfold tasksOf
    rw [List.map_map]
    rfl
  rw [h2] at h1
  have h3 : g.nodes.map (fun p => p.2.task) =
      (tasksOf g.nodes).map (fun q => q.2) := by
    unfold tasksOf
    rw [List.map_map]
    rfl
  rw [h3, h1, List.map_map]
  have h4 : ((fun q : String × Task => q.2) ∘ fun t : Task => (t.id, t)) =
      fun t : Task => t := rfl
  rw [h4, List.map_id']

/-- `getReadyTasks` returns a sublist of the node tasks, in node order. -/
theorem getReadyTasks_sublist (g : DependencyGraph) (c : List String) :
    (getReadyTasks g c).Sublist (g.nodes.map (fun p => p.2.task)) := by
  unfold getReadyTasks
  induction g.nodes with
  | nil => simp
  | cons p rest ih =>
    rw [List.filterMap_cons, List.map_cons]
    cases hfp : (if p.1 ∈ c then none
        else if p.2.task.status ≠ "pending" ∧ p.2.task.status ≠ "ready" then
          none
        else if p.2.dependencies.all (fun d => decide (d ∈ c)) then
          some p.2.task
        else none : Option Task) with
    | none =>
      exact List.Sublist.cons p.2.task ih
    | some t =>
      have ht : t = p.2.task := by
        by_cases h1 : p.1 ∈ c
        · rw [if_pos h1] at hfp
          exact absurd hfp (by simp)
        · rw [if_neg h1] at hfp
          by_cases h2 : p.2.task.status ≠ "pending" ∧ p.2.task.status ≠ "ready"
          · rw [if_pos h2] at hfp
            exact absurd hfp (by simp)
          · rw [if_neg h2] at hfp
            by_cases h3 : (p.2.dependencies.all fun d => decide (d ∈ c)) = true
            · rw [if_pos h3] at hfp
              injection hfp with hfp
              exact hfp.symm
            · rw [if_neg h3] at hfp
              exact absurd hfp (by simp)
      rw [ht]
      exact List.Sublist.cons₂ p.2.task ih

/-- The scheduling loop materialises the `zip` of the two lists, one pairing
per index, as long as both lists last. -/
theorem buildScheduleAux_eq (planId : String) (pending : List Task)
    (avail : List Worktree) :
    ∀ (n i : Nat), i + n ≤ pending.length → i + n ≤ avail.length →
      buildScheduleAux planId pending avail i n =
        List.zipWith (fun t w => ⟨t, w, generateBranchName planId t⟩)
          ((pending.drop i).take n) ((avail.drop i).take n) := by
  intro n
  induction n with
  | zero =>
    intro i _ _
    simp [buildScheduleAux]
  | succ n ih =>
    intro i h1 h2
    have hip : i < pending.length := by omega
    have hia : i < avail.length := by omega
    rw [buildScheduleAux, List.getElem?_eq_getElem hip,
      List.getElem?_eq_getElem hia]
    dsimp only []
    rw [List.drop_eq_getElem_cons hip, List.drop_eq_getElem_cons hia,
      List.take_succ_cons, List.take_succ_cons, List.zipWith_cons_cons,
      ih (i + 1) (by omega) (by omega)]

/-- **C4.**  `getNextBatch` pairs the ready-minus-in-progress tasks (which on
a state produced by `initializeScheduler` stand in level-then-id order) with
the available worktrees (in name order): when
`min(maxConcurrent − |inProgress|, |available|, |pending|) ≤ 0` it returns the
empty batch, and otherwise it returns exactly that minimum number of
pairings, the `i`-th ready task with the `i`-th available worktree. -/
theorem c4_next_batch (ctx : SchedulerContext) (taskTable : List Task)
    (depTable : List TaskDep) (worktreeTable : List Worktree)
    (st : SchedulerState)
    (hinit : initializeScheduler taskTable depTable ctx = .ok st)
    (hnodup : ((getTasksByPlan taskTable ctx.planId).map Task.id).Nodup) :
    (getAvailableWorktrees worktreeTable ctx.projectId).Pairwise
      (fun a b => wtLE a b = true) ∧
    (readyMinusInProgress st).Pairwise (fun a b => taskLE a b = true) ∧
    (∀ k : Int,
      k = min (min (ctx.maxConcurrent - (st.inProgressTaskIds.length : Int))
            ((getAvailableWorktrees worktreeTable ctx.projectId).length : Int))
          ((readyMinusInProgress st).length : Int) →
      k ≤ 0 → getNextBatch ctx st worktreeTable = []) ∧
    (∀ k : Int,
      k = min (min (ctx.maxConcurrent - (st.inProgressTaskIds.length : Int))
            ((getAvailableWorktrees worktreeTable ctx.projectId).length : Int))
          ((readyMinusInProgress st).length : Int) →
      0 < k →
      getNextBatch ctx st worktreeTable =
        List.zipWith (fun t w => ⟨t, w, generateBranchName ctx.planId t⟩)
          ((readyMinusInProgress st).take k.toNat)
          ((getAvailableWorktrees worktreeTable ctx.projectId).take k.toNat) ∧
      (getNextBatch ctx st worktreeTable).length = k.toNat) := by
  have hwt : (getAvailableWorktrees worktreeTable ctx.projectId).Pairwise
      (fun a b => wtLE a b = true) := by
    haveI : IsTotal Worktree (fun a b => wtLE a b = true) := ⟨wtLE_total⟩
    haveI : IsTrans Worktree (fun a b => wtLE a b = true) := ⟨wtLE_trans⟩
    unfold getAvailableWorktrees
    exact List.sorted_insertionSort _ _
  have hpend : (readyMinusInProgress st).Pairwise
      (fun a b => taskLE a b = true) := by
    simp only [initializeScheduler] at hinit
    cases hb : buildDependencyGraph (getTasksByPlan taskTable ctx.planId)
        (getAllDependenciesForPlan taskTable depTable ctx.planId) with
    | error e =>
      rw [hb] at hinit
      exact absurd hinit (by simp)
    | ok graph =>
      rw [hb] at hinit
      dsimp only [] at hinit
      injection hinit with hinit
      have hsorted : (getTasksByPlan taskTable ctx.planId).Pairwise
          (fun a b => taskLE a b = true) := by
        haveI : IsTotal Task (fun a b => taskLE a b = true) := ⟨taskLE_total⟩
        haveI : IsTrans Task (fun a b => taskLE a b = true) := ⟨taskLE_trans⟩
        unfold getTasksByPlan
        exact List.sorted_insertionSort _ _
      have hgt := graph_tasks _ _ graph hb hnodup
      have hmap : (graph.nodes.map (fun p => p.2.task)).Pairwise
          (fun a b => taskLE a b = true) := by
        rw [hgt]
        exact hsorted
      have hready : (getReadyTasks graph st.completedTaskIds).Pairwise
          (fun a b => taskLE a b = true) :=
        hmap.sublist (getReadyTasks_sublist graph st.completedTaskIds)
      have hst : st.graph = graph := by
        rw [← hinit]
      unfold readyMinusInProgress
      rw [hst]
      exact hready.filter _
  refine ⟨hwt, hpend, ?_, ?_⟩
  · intro k hk hk0
    simp only [getNextBatch]
    by_cases hemp : (readyMinusInProgress st).isEmpty
    · rw [if_pos hemp]
    · rw [if_neg hemp, if_pos (show _ ≤ (0 : Int) by rw [← hk]; exact hk0)]
  · intro k hk hk0
    have hkp : k.toNat ≤ (readyMinusInProgress st).length := by
      rw [hk, Int.toNat_le]
      exact min_le_right _ _
    have hka : k.toNat ≤
        (getAvailableWorktrees worktreeTable ctx.projectId).length := by
      rw [hk, Int.toNat_le]
      exact le_trans (min_le_left _ _) (min_le_right _ _)
    have hne : (readyMinusInProgress st).isEmpty = false := by
      have hlen : 0 < (readyMinusInProgress st).length := by
        have h1 : k ≤ ((readyMinusInProgress st).length : Int) := by
          rw [hk]
          exact min_le_right _ _
        omega
      cases hl : readyMinusInProgress st with
      | nil =>
        rw [hl] at hlen
        simp at hlen
      | cons a l => rfl
    have hne' : ¬((readyMinusInProgress st).isEmpty = true) := by
      rw [hne]
      simp
    have hkgt : ¬(min (min (ctx.maxConcurrent -
          (st.inProgressTaskIds.length : Int))
          ((getAvailableWorktrees worktreeTable ctx.projectId).length : Int))
        ((readyMinusInProgress st).length : Int) ≤ 0) := by
      rw [← hk]
      omega
    have heq : getNextBatch ctx st worktreeTable =
        List.zipWith (fun t w => ⟨t, w, generateBranchName ctx.planId t⟩)
          ((readyMinusInProgress st).take k.toNat)
          ((getAvailableWorktrees worktreeTable ctx.projectId).take k.toNat) := by
      simp only [getNextBatch]
      rw [if_neg hne', if_neg hkgt, ← hk,
        buildScheduleAux_eq ctx.planId (readyMinusInProgress st)
          (getAvailableWorktrees worktreeTable ctx.projectId) k.toNat 0
          (by omega) (by omega),
        List.drop_zero, List.drop_zero]
    refine ⟨heq, ?_⟩
    rw [heq, List.length_zipWith, List.length_take, List.length_take]
    omega

/-- Witness for `c4_next_batch`: four ready level-0 tasks, two available
worktrees, `maxConcurrent = 2`, nobody in progress — the batch pairs the
first two tasks with the two worktrees. -/
theorem c4_next_batch_witness :
    (getAvailableWorktrees c4Wts c4Ctx.projectId).Pairwise
      (fun a b => wtLE a b = true) ∧
    (readyMinusInProgress c4St).Pairwise (fun a b => taskLE a b = true) ∧
    (∀ k : Int,
      k = min (min (c4Ctx.maxConcurrent - (c4St.inProgressTaskIds.length : Int))
            ((getAvailableWorktrees c4Wts c4Ctx.projectId).length : Int))
          ((readyMinusInProgress c4St).length : Int) →
      k ≤ 0 → getNextBatch c4Ctx c4St c4Wts = []) ∧
    (∀ k : Int,
      k = min (min (c4Ctx.maxConcurrent - (c4St.inProgressTaskIds.length : Int))
            ((getAvailableWorktrees c4Wts c4Ctx.projectId).length : Int))
          ((readyMinusInProgress c4St).length : Int) →
      0 < k →
      getNextBatch c4Ctx c4St c4Wts =
        List.zipWith (fun t w => ⟨t, w, generateBranchName c4Ctx.planId t⟩)
          ((readyMinusInProgress c4St).take k.toNat)
          ((getAvailableWorktrees c4Wts c4Ctx.projectId).take k.toNat) ∧
      (getNextBatch c4Ctx c4St c4Wts).length = k.toNat) :=
  c4_next_batch c4Ctx diamondTasks [] c4Wts c4St (by decide) (by decide)

/-! ## C10 — the timestamp helper -/

/-- C10, counterexample: the claim says successive calls return strictly
increasing timestamps even when the wall clock does not advance.  Two calls
of `now()` with the wall clock stalled at the epoch both return
`1970-01-01T00:00:00.000Z`: the timestamp repeats and the output is not
strictly increasing, so no one-millisecond adjustment is applied. -/
theorem c10_now_counterexample :
    runNow [0, 0] = ["1970-01-01T00:00:00.000Z", "1970-01-01T00:00:00.000Z"] ∧
    ¬ List.Chain' (fun a b : String => a < b) (runNow [0, 0]) := by
  refine ⟨by decide, ?_⟩
  intro h
  rw [show runNow [0, 0] = ["1970-01-01T00:00:00.000Z", "1970-01-01T00:00:00.000Z"] from by decide] at h
  exact lt_irrefl _ (List.chain'_cons.mp h).1

/-- C10, amended: `now()` returns the ISO-8601 UTC rendering of the current
wall-clock reading and keeps no state between calls, so whenever the wall
clock does not advance between two successive calls the same timestamp is
returned (the first two outputs coincide) and the output sequence is not
strictly increasing; no one-millisecond adjustment is performed. -/
theorem c10_now_repeats_on_stalled_clock (t : Nat) (ts : List Nat) :
    (runNow (t :: t :: ts))[0]? = (runNow (t :: t :: ts))[1]? ∧
    ¬ List.Chain' (fun a b : String => a < b) (runNow (t :: t :: ts)) := by
  constructor
  · simp [runNow]
  · intro h
    simp only [runNow, List.map_cons] at h
    exact lt_irrefl _ (List.chain'_cons.mp h).1

/-! ## C9 — dependency-edge validation -/

/-- The per-edge error list produced by one step of the `validateDependencies`
fold. -/
def depErrs (taskIds : List String) (dep : TaskDep) : List String :=
  (if dep.taskId ∉ taskIds then ["Task " ++ dep.taskId ++ " not found"] else []) ++
  (if dep.dependsOnId ∉ taskIds then
    ["Dependency " ++ dep.dependsOnId ++ " not found for task " ++ dep.taskId]
  else []) ++
  (if dep.taskId == dep.dependsOnId then
    ["Task " ++ dep.taskId ++ " cannot depend on itself"]
  else [])

theorem validateStep (taskIds : List String) (errs : List String) (dep : TaskDep) :
    (let errs :=
      if dep.taskId ∉ taskIds then errs ++ ["Task " ++ dep.taskId ++ " not found"]
      else errs
    let errs :=
      if dep.dependsOnId ∉ taskIds then
        errs ++ ["Dependency " ++ dep.dependsOnId ++ " not found for task " ++ dep.taskId]
      else errs
    if dep.taskId == dep.dependsOnId then
      errs ++ ["Task " ++ dep.taskId ++ " cannot depend on itself"]
    else errs) = errs ++ depErrs taskIds dep := by
  simp only [depErrs]
  split_ifs <;> simp

theorem validate_foldl (taskIds : List String) (deps : List TaskDep)
    (acc : List String) :
    deps.foldl
      (fun errs dep =>
        let errs :=
          if dep.taskId ∉ taskIds then errs ++ ["Task " ++ dep.taskId ++ " not found"]
          else errs
        let errs :=
          if dep.dependsOnId ∉ taskIds then
            errs ++ ["Dependency " ++ dep.dependsOnId ++ " not found for task " ++ dep.taskId]
          else errs
        if dep.taskId == dep.dependsOnId then
          errs ++ ["Task " ++ dep.taskId ++ " cannot depend on itself"]
        else errs)
      acc = acc ++ deps.flatMap (depErrs taskIds) := by
  induction deps generalizing acc with
  | nil => simp
  | cons d rest ih =>
    rw [List.foldl_cons, validateStep, ih, List.flatMap_cons, List.append_assoc]

theorem depErrs_eq_nil (taskIds : List String) (dep : TaskDep) :
    depErrs taskIds dep = [] ↔
      dep.taskId ∈ taskIds ∧ dep.dependsOnId ∈ taskIds ∧
        dep.taskId ≠ dep.dependsOnId := by
  simp only [depErrs]
  split_ifs with h1 h2 h3 <;> simp_all

/-- C9, counterexample: the claim says validation rejects every duplicate
edge.  With tasks `A`, `B` and the edge `B depends on A` submitted twice,
`validateDependencies` reports the set as valid (no error), so duplicate
edges are not rejected by validation. -/
theorem c9_duplicate_edge_counterexample :
    validateDependencies
      [⟨"A", "p", "A", "A", "pending", 0, none, none, none, none⟩,
       ⟨"B", "p", "B", "B", "pending", 0, none, none, none, none⟩]
      [⟨"d1", "B", "A"⟩, ⟨"d2", "B", "A"⟩] = ⟨true, []⟩ := by
  decide

/-- C9, amended: `validateDependencies` accepts an edge set exactly when every
edge's endpoints exist among the tasks and no edge is a self-edge; duplicate
edges are not checked by validation (only the store's
`UNIQUE(task_id, depends_on_id)` constraint catches them on insert).  The
validator is a pure function of the task and edge lists, so a rejected
submission touches no store row. -/
theorem c9_validate_dependencies (tasks : List Task) (deps : List TaskDep) :
    (validateDependencies tasks deps).valid = true ↔
      ∀ d ∈ deps, d.taskId ∈ tasks.map Task.id ∧
        d.dependsOnId ∈ tasks.map Task.id ∧ d.taskId ≠ d.dependsOnId := by
  unfold validateDependencies
  simp only [validate_foldl, List.nil_append]
  rw [show ∀ l : List String, (l.length == 0) = true ↔ l = [] from fun l => by
    simp [List.length_eq_zero]]
  rw [List.flatMap_eq_nil_iff]
  constructor
  · intro h d hd
    exact (depErrs_eq_nil _ d).mp (h _ hd)
  · intro h d hd
    exact (depErrs_eq_nil _ d).mpr (h d hd)

/-! ## C7 — prefix lookup -/

/-- C7, counterexample: the claim says a lookup with two or more matching
rows fails with `Ambiguous` and is never resolved by silently picking a row.
With tasks `abc1` and `abc2` in plan `p`, the CLI's `findTask` resolves the
prefix `abc` by silently returning the first matching row, and the
repository's `getTaskByIdPrefix` returns `null` — the same answer as for a
prefix with no match at all — rather than a distinct `Ambiguous` failure. -/
theorem c7_ambiguous_counterexample :
    (findTask
        [⟨"abc1", "p", "A", "A", "pending", 0, none, none, none, none⟩,
         ⟨"abc2", "p", "B", "B", "pending", 0, none, none, none, none⟩]
        [⟨"p", "proj", "P", none, "main", "ready"⟩] "proj" "abc" =
      some ⟨"abc1", "p", "A", "A", "pending", 0, none, none, none, none⟩) ∧
    getTaskByIdPrefix
        [⟨"abc1", "p", "A", "A", "pending", 0, none, none, none, none⟩,
         ⟨"abc2", "p", "B", "B", "pending", 0, none, none, none, none⟩]
        "abc" = none ∧
    getTaskByIdPrefix
        [⟨"abc1", "p", "A", "A", "pending", 0, none, none, none, none⟩,
         ⟨"abc2", "p", "B", "B", "pending", 0, none, none, none, none⟩]
        "zzz" = none := by
  refine ⟨by decide, by decide, by decide⟩

/-- C7, amended: `getTaskByIdPrefix` returns the unique row whose identity
starts with the prefix when exactly one such row exists, and returns `null`
otherwise — both when zero rows match and when two or more do, so an
ambiguous prefix is indistinguishable from a missing one (no `Ambiguous`
error); separately, the CLI `findTask` helper resolves an ambiguous prefix by
returning the first matching row of the first plan that has one. -/
theorem c7_prefix_lookup (tasks : List Task) (pfx : String) :
    ((tasks.filter (fun t => strStartsWith t.id pfx)).length = 1 →
      getTaskByIdPrefix tasks pfx =
        (tasks.filter (fun t => strStartsWith t.id pfx))[0]?) ∧
    ((tasks.filter (fun t => strStartsWith t.id pfx)).length ≠ 1 →
      getTaskByIdPrefix tasks pfx = none) := by
  unfold getTaskByIdPrefix
  constructor
  · intro h1
    simp only [List.length_take, h1]
    norm_num
  · intro h1
    simp only [List.length_take]
    have : ¬ (min 2 (tasks.filter (fun t => strStartsWith t.id pfx)).length = 1) := by
      omega
    simp [this]

/-- C7 witness: with the single task `abc1`, exactly one row matches the
prefix `abc`, and the lookup returns it. -/
theorem c7_prefix_lookup_witness :
    getTaskByIdPrefix
        [⟨"abc1", "p", "A", "A", "pending", 0, none, none, none, none⟩] "abc" =
      some ⟨"abc1", "p", "A", "A", "pending", 0, none, none, none, none⟩ := by
  have h := (c7_prefix_lookup
    [⟨"abc1", "p", "A", "A", "pending", 0, none, none, none, none⟩] "abc").1
    (by decide)
  rw [h]
  decide

/-! ## Helper lemmas about the keyed `map` updates used by the store -/

theorem status_of_mem_updateTaskStatus {tasks : List Task} {id status : String}
    {t : Task} (ht : t ∈ updateTaskStatus tasks id status) (hid : t.id = id) :
    t.status = status := by
  simp only [updateTaskStatus, List.mem_map] at ht
  obtain ⟨u, _, hu⟩ := ht
  by_cases h : u.id = id
  · simp [h] at hu
    rw [← hu]
  · simp [h] at hu
    rw [← hu] at hid
    exact absurd hid h

theorem mem_updateTaskStatus_of_ne {tasks : List Task} {id status : String}
    {t : Task} (ht : t ∈ tasks) (hne : t.id ≠ id) :
    t ∈ updateTaskStatus tasks id status := by
  simp only [updateTaskStatus, List.mem_map]
  exact ⟨t, ht, by simp [hne]⟩

theorem mem_of_mem_updateTaskStatus_ne {tasks : List Task} {id status : String}
    {t : Task} (ht : t ∈ updateTaskStatus tasks id status) (hne : t.id ≠ id) :
    t ∈ tasks := by
  simp only [updateTaskStatus, List.mem_map] at ht
  obtain ⟨u, hu, heq⟩ := ht
  by_cases h : u.id = id
  · exfalso
    apply hne
    rw [← heq]
    simp [h]
  · simp [h] at heq
    rw [← heq]
    exact hu

theorem status_of_mem_updatePrStatus {prs : List Pr} {id status : String}
    {p : Pr} (hp : p ∈ updatePrStatus prs id status) (hid : p.id = id) :
    p.status = status := by
  simp only [updatePrStatus, List.mem_map] at hp
  obtain ⟨u, _, hu⟩ := hp
  by_cases h : u.id = id
  · simp [h] at hu
    rw [← hu]
  · simp [h] at hu
    rw [← hu] at hid
    exact absurd hid h

theorem status_of_mem_updateWorktreeStatus {wts : List Worktree}
    {id status : String} {w : Worktree}
    (hw : w ∈ updateWorktreeStatus wts id status) (hid : w.id = id) :
    w.status = status := by
  simp only [updateWorktreeStatus, List.mem_map] at hw
  obtain ⟨u, _, hu⟩ := hw
  by_cases h : u.id = id
  · simp [h] at hu
    rw [← hu]
  · simp [h] at hu
    rw [← hu] at hid
    exact absurd hid h

theorem status_of_mem_updatePlanStatus {plans : List Plan} {id status : String}
    {p : Plan} (hp : p ∈ updatePlanStatus plans id status) (hid : p.id = id) :
    p.status = status := by
  simp only [updatePlanStatus, List.mem_map] at hp
  obtain ⟨u, _, hu⟩ := hp
  by_cases h : u.id = id
  · simp [h] at hu
    rw [← hu]
  · simp [h] at hu
    rw [← hu] at hid
    exact absurd hid h

/-! ## C6 — PR merge sync -/

/-- C6, counterexample: task `t2` (status `pending`) depends on task `t1`;
`t1`'s PR #42 is reported `state=MERGED` by the forge.  The claim says `sync`
moves `t2` from `pending` to `ready`.  After the sync the PR is `merged` and
`t1` is `completed`, but `t2`'s stored status is still `pending` — no
dependent is promoted to `ready` by `syncPrs`. -/
theorem c6_sync_counterexample :
    (syncPrSingle
        ⟨[⟨"t1", "p", "T1", "T1", "in_review", 0, none, none, none, none⟩,
          ⟨"t2", "p", "T2", "T2", "pending", 1, none, none, none, none⟩],
         [⟨"pr1", "t1", 42, "u", "open", "main", "feature/x", ⟩]⟩
        ⟨"t1", "p", "T1", "T1", "in_review", 0, none, none, none, none⟩
        ⟨42, "T1", "u", "MERGED", "feature/x", "main", false, none⟩).map
      (fun s =>
        ((getTaskById s.tasks "t1").map Task.status,
         (getTaskById s.tasks "t2").map Task.status,
         (getPrByTaskId s.prs "t1").map Pr.status)) =
      some (some "completed", some "pending", some "merged") ∧
    getTaskDependents [⟨"d1", "t2", "t1"⟩] "t1" = [⟨"d1", "t2", "t1"⟩] := by
  refine ⟨by decide, by decide⟩

/-- C6, amended: when the forge reports `state=MERGED` for a task's PR,
`syncPrs` stores PR status `merged` and sets the task's status to
`completed`; every other task row — in particular every dependent — is left
exactly as it was, so a `pending` dependent stays `pending` (it becomes
eligible through the ready-set computation, not through a stored status
change). -/
theorem c6_sync_merged (store : SyncStore) (task : Task) (ghPr : PrInfo)
    (pr : Pr) (store' : SyncStore)
    (hpr : getPrByTaskId store.prs task.id = some pr)
    (hmerged : ghPr.state = "MERGED")
    (hsync : syncPrSingle store task ghPr = some store') :
    (∀ p ∈ store'.prs, p.id = pr.id → p.status = "merged") ∧
    (∀ t ∈ store'.tasks, t.id = task.id → t.status = "completed") ∧
    (∀ t ∈ store.tasks, t.id ≠ task.id → t ∈ store'.tasks) ∧
    (∀ t ∈ store'.tasks, t.id ≠ task.id → t ∈ store.tasks) := by
  have hconv : convertPrStatus ghPr = "merged" := by
    simp [convertPrStatus, hmerged]
  unfold syncPrSingle at hsync
  rw [hpr] at hsync
  simp only [hconv] at hsync
  norm_num at hsync
  refine ⟨?_, ?_, ?_, ?_⟩
  · intro p hp hid
    rw [← hsync] at hp
    exact status_of_mem_updatePrStatus hp hid
  · intro t ht hid
    rw [← hsync] at ht
    exact status_of_mem_updateTaskStatus ht hid
  · intro t ht hne
    rw [← hsync]
    exact mem_updateTaskStatus_of_ne ht hne
  · intro t ht hne
    rw [← hsync] at ht
    exact mem_of_mem_updateTaskStatus_ne ht hne

/-- C6 witness: the amended theorem applied to a one-task store whose PR #42
is reported merged — the stored PR row ends `merged` and the task row ends
`completed`. -/
theorem c6_sync_merged_witness :
    (⟨"pr1", "t1", 42, "u", "merged", "main", "feature/x"⟩ : Pr).status =
        "merged" ∧
    (⟨"t1", "p", "T1", "T1", "completed", 0, none, none, none,
        none⟩ : Task).status = "completed" := by
  have h := c6_sync_merged
    ⟨[⟨"t1", "p", "T1", "T1", "in_review", 0, none, none, none, none⟩],
     [⟨"pr1", "t1", 42, "u", "open", "main", "feature/x"⟩]⟩
    ⟨"t1", "p", "T1", "T1", "in_review", 0, none, none, none, none⟩
    ⟨42, "T1", "u", "MERGED", "feature/x", "main", false, none⟩
    ⟨"pr1", "t1", 42, "u", "open", "main", "feature/x"⟩
    ⟨[⟨"t1", "p", "T1", "T1", "completed", 0, none, none, none, none⟩],
     [⟨"pr1", "t1", 42, "u", "merged", "main", "feature/x"⟩]⟩
    (by decide) rfl (by decide)
  exact ⟨h.1 ⟨"pr1", "t1", 42, "u", "merged", "main", "feature/x"⟩
      (by decide) rfl,
    h.2.1 ⟨"t1", "p", "T1", "T1", "completed", 0, none, none, none, none⟩
      (by decide) rfl⟩

/-! ## C5 — completing an assigned task -/

/-- C5, counterexample: task `t1` is `in_progress` in worktree `w1`
(status `in_progress`, `task_id = t1`, `branch = feature/b`).  The claim says
`complete` moves the worktree to `completed` and then to `available` with
`task_id` and `branch` cleared.  After `completeTask` the worktree's status
is `completed` — not `available` — and its `task_id` and `branch` are still
set: the release to `available` never happens inside `completeTask`. -/
theorem c5_complete_counterexample :
    ((completeTask
        ⟨[⟨"t1", "p", "T1", "T1", "in_progress", 0, none, some "feature/b",
            some "w1", none⟩],
         [⟨"w1", "proj", "app0", "/w0", some "feature/b", "in_progress",
            some "t1"⟩]⟩
        ⟨⟨[], [], 0⟩, [], ["t1"], [("t1", "w1")]⟩
        "t1").1.worktrees.map
      (fun w => (w.status, w.taskId, w.branch))) =
      [("completed", some "t1", some "feature/b")] := by
  decide

/-- C5, amended: for a task holding a slot assignment, `completeTask` sets
the task's status to `completed`, removes it from the in-progress set and the
assignment map, adds it to the completed set, and sets the worktree's status
to `completed` — leaving the worktree's `task_id` and `branch` untouched.
The return to `available` with `task_id` and `branch` cleared is performed
only by the separate `releaseWorktree` operation (the `wt reset` command),
not by task completion. -/
theorem c5_complete_task (store : SchedStore) (st : SchedulerState)
    (taskId wtId : String)
    (hassign : lookupA st.assignedWorktrees taskId = some wtId) :
    (∀ t ∈ (completeTask store st taskId).1.tasks, t.id = taskId →
      t.status = "completed") ∧
    taskId ∈ (completeTask store st taskId).2.completedTaskIds ∧
    taskId ∉ (completeTask store st taskId).2.inProgressTaskIds ∧
    lookupA (completeTask store st taskId).2.assignedWorktrees taskId = none ∧
    (∀ w ∈ (completeTask store st taskId).1.worktrees, w.id = wtId →
      w.status = "completed") ∧
    (∀ w ∈ store.worktrees,
      ∃ w' ∈ (completeTask store st taskId).1.worktrees,
        w'.id = w.id ∧ w'.taskId = w.taskId ∧ w'.branch = w.branch) ∧
    (∀ wts : List Worktree, ∀ w ∈ releaseWorktree wts wtId, w.id = wtId →
      w.status = "available" ∧ w.taskId = none ∧ w.branch = none) := by
  unfold completeTask
  rw [hassign]
  refine ⟨?_, ?_, ?_, ?_, ?_, ?_, ?_⟩
  · intro t ht hid
    exact status_of_mem_updateTaskStatus ht hid
  · simp [setAdd]
    split_ifs with h
    · exact h
    · simp
  · simp [setDelete]
  · simp only [deleteA, lookupA]
    rw [Option.map_eq_none']
    rw [List.find?_eq_none]
    intro p hp
    have hq := List.of_mem_filter hp
    simp only [bne_iff_ne, ne_eq, decide_eq_true_eq] at hq
    simp [hq]
  · intro w hw hid
    exact status_of_mem_updateWorktreeStatus hw hid
  · intro w hw
    simp only [updateWorktreeStatus, List.mem_map]
    by_cases h : w.id = wtId
    · exact ⟨{ w with status := "completed" }, ⟨w, hw, by simp [h]⟩, by simp [h]⟩
    · exact ⟨w, ⟨w, hw, by simp [h]⟩, by simp⟩
  · intro wts w hw hid
    simp only [releaseWorktree, List.mem_map] at hw
    obtain ⟨u, _, hu⟩ := hw
    by_cases h : u.id = wtId
    · simp [h] at hu
      rw [← hu]
      exact ⟨rfl, rfl, rfl⟩
    · simp [h] at hu
      rw [← hu] at hid
      exact absurd hid h

/-- C5 witness: the amended theorem applied to the single-task store above. -/
theorem c5_complete_task_witness :
    "t1" ∈ (completeTask
        ⟨[⟨"t1", "p", "T1", "T1", "in_progress", 0, none, some "feature/b",
            some "w1", none⟩],
         [⟨"w1", "proj", "app0", "/w0", some "feature/b", "in_progress",
            some "t1"⟩]⟩
        ⟨⟨[], [], 0⟩, [], ["t1"], [("t1", "w1")]⟩
        "t1").2.completedTaskIds := by
  have h := c5_complete_task
    ⟨[⟨"t1", "p", "T1", "T1", "in_progress", 0, none, some "feature/b",
        some "w1", none⟩],
     [⟨"w1", "proj", "app0", "/w0", some "feature/b", "in_progress",
        some "t1"⟩]⟩
    ⟨⟨[], [], 0⟩, [], ["t1"], [("t1", "w1")]⟩
    "t1" "w1" (by decide)
  exact h.2.1

/-! ## C8 — planner persistence -/

theorem insertPlannerTasks_status (plan : Plan) (levels : List (String × Int))
    (genId : Nat → String) :
    ∀ (tps : List TaskPlan) (i : Nat),
      ∀ t ∈ (insertPlannerTasks plan levels genId tps i).1,
        t.planId = plan.id ∧
          t.status = (if t.level == 0 then "ready" else "pending") := by
  intro tps
  induction tps with
  | nil => intro i t ht; simp [insertPlannerTasks] at ht
  | cons tp rest ih =>
    intro i t ht
    simp only [insertPlannerTasks, List.mem_cons] at ht
    rcases ht with ht | ht
    · subst ht
      exact ⟨rfl, rfl⟩
    · exact ih (i + 1) t ht

theorem insertPlannerTasks_idMap_values (plan : Plan)
    (levels : List (String × Int)) (genId : Nat → String) :
    ∀ (tps : List TaskPlan) (i : Nat) (k v : String),
      (k, v) ∈ (insertPlannerTasks plan levels genId tps i).2 →
        v ∈ (insertPlannerTasks plan levels genId tps i).1.map Task.id := by
  intro tps
  induction tps with
  | nil => intro i k v h; simp [insertPlannerTasks] at h
  | cons tp rest ih =>
    intro i k v h
    simp only [insertPlannerTasks, List.mem_cons, List.map_cons] at h ⊢
    rcases h with h | h
    · left
      exact congrArg Prod.snd h
    · right
      exact ih (i + 1) k v h

theorem insertDepsOf_endpoints (idMap : List (String × String))
    (genId : Nat → String) (taskId : String) :
    ∀ (ds : List String) (i : Nat),
      ∀ d ∈ (insertDepsOf idMap genId taskId ds i).1,
        d.taskId = taskId ∧ d.dependsOnId ∈ idMap.map Prod.snd := by
  intro ds
  induction ds with
  | nil => intro i d h; simp [insertDepsOf] at h
  | cons a rest ih =>
    intro i d h
    simp only [insertDepsOf] at h
    cases ha : lookupA idMap a with
    | none =>
      rw [ha] at h
      exact ih i d h
    | some v =>
      rw [ha] at h
      simp only [List.mem_cons] at h
      rcases h with h | h
      · subst h
        refine ⟨rfl, ?_⟩
        exact List.mem_map_of_mem Prod.snd (lookupA_mem ha)
      · exact ih (i + 1) d h

theorem insertPlannerDeps_endpoints (idMap : List (String × String))
    (genId : Nat → String) :
    ∀ (tps : List TaskPlan) (i : Nat),
      ∀ d ∈ insertPlannerDeps idMap genId tps i,
        d.taskId ∈ idMap.map Prod.snd ∧ d.dependsOnId ∈ idMap.map Prod.snd := by
  intro tps
  induction tps with
  | nil => intro i d h; simp [insertPlannerDeps] at h
  | cons tp rest ih =>
    intro i d h
    simp only [insertPlannerDeps] at h
    cases ht : lookupA idMap tp.id with
    | none =>
      rw [ht] at h
      exact ih i d h
    | some taskId =>
      rw [ht] at h
      rw [List.mem_append] at h
      rcases h with h | h
      · obtain ⟨h1, h2⟩ := insertDepsOf_endpoints idMap genId taskId tp.dependsOn i d h
        refine ⟨?_, h2⟩
        rw [h1]
        exact List.mem_map_of_mem Prod.snd (lookupA_mem ht)
      · exact ih _ d h

/-- C8, counterexample: the claim says that on any failure the plan is
restored to `draft`.  A plan in status `draft` whose planner call fails (the
LLM response cannot be parsed) is left in status `planning`: no code path
restores `draft`. -/
theorem c8_failure_counterexample :
    (generateAndSavePlan
        ⟨[⟨"p1", "proj", "P", none, "main", "draft"⟩], [], []⟩
        ⟨"p1", "proj", "P", none, "main", "draft"⟩
        (.error "Failed to parse planning response")
        (fun n => "id" ++ toString n)).1.plans =
      [⟨"p1", "proj", "P", none, "main", "planning"⟩] := by
  decide

/-- C8, amended: planner persistence inserts every generated task with status
`ready` at computed level 0 and `pending` otherwise, then inserts the
dependency edges in a second pass (every edge endpoint is one of the newly
inserted tasks); the plan's status moves from `draft` to `planning` before
the LLM call and to `ready` after success, but on failure the plan is left in
`planning` (nothing restores `draft`), and the failed run inserts no task and
no edge. -/
theorem c8_planner_persistence (store : PlannerStore) (plan : Plan)
    (outcome : Except String PlanningResult) (genId : Nat → String) :
    (∀ u, (generateAndSavePlan store plan outcome genId).2 = .ok u →
      ∀ q ∈ (generateAndSavePlan store plan outcome genId).1.plans,
        q.id = plan.id → q.status = "ready") ∧
    (∀ e, (generateAndSavePlan store plan outcome genId).2 = .error e →
      (∀ q ∈ (generateAndSavePlan store plan outcome genId).1.plans,
        q.id = plan.id → q.status = "planning") ∧
      (generateAndSavePlan store plan outcome genId).1.tasks = store.tasks ∧
      (generateAndSavePlan store plan outcome genId).1.taskDeps = store.taskDeps) ∧
    (∀ pr levels, outcome = .ok pr →
      calculateTaskLevels pr.tasks = .ok levels →
      (generateAndSavePlan store plan outcome genId).1.tasks =
        store.tasks ++ (insertPlannerTasks plan levels genId pr.tasks 0).1 ∧
      (∀ t ∈ (insertPlannerTasks plan levels genId pr.tasks 0).1,
        t.planId = plan.id ∧
          t.status = (if t.level == 0 then "ready" else "pending")) ∧
      (generateAndSavePlan store plan outcome genId).1.taskDeps =
        store.taskDeps ++
          insertPlannerDeps (insertPlannerTasks plan levels genId pr.tasks 0).2
            genId pr.tasks pr.tasks.length ∧
      (∀ d ∈ insertPlannerDeps (insertPlannerTasks plan levels genId pr.tasks 0).2
          genId pr.tasks pr.tasks.length,
        ∃ v ∈ (insertPlannerTasks plan levels genId pr.tasks 0).1.map Task.id,
          d.taskId = v) ∧
      (∀ d ∈ insertPlannerDeps (insertPlannerTasks plan levels genId pr.tasks 0).2
          genId pr.tasks pr.tasks.length,
        ∃ v ∈ (insertPlannerTasks plan levels genId pr.tasks 0).1.map Task.id,
          d.dependsOnId = v)) := by
  rcases outcome with e | pr
  · refine ⟨?_, ?_, ?_⟩
    · intro u hu
      simp [generateAndSavePlan] at hu
    · intro e' _
      refine ⟨?_, rfl, rfl⟩
      intro q hq hid
      simp only [generateAndSavePlan] at hq
      exact status_of_mem_updatePlanStatus hq hid
    · intro pr levels hpr
      exact absurd hpr (by simp)
  · rcases hlev : calculateTaskLevels pr.tasks with e | levels
    · refine ⟨?_, ?_, ?_⟩
      · intro u hu
        simp [generateAndSavePlan, hlev] at hu
      · intro e' _
        refine ⟨?_, ?_, ?_⟩
        · intro q hq hid
          simp only [generateAndSavePlan, hlev] at hq
          exact status_of_mem_updatePlanStatus hq hid
        · simp [generateAndSavePlan, hlev]
        · simp [generateAndSavePlan, hlev]
      · intro pr1 levels1 h1 h2
        injection h1 with hp
        subst hp
        rw [hlev] at h2
        exact absurd h2 (by simp)
    · refine ⟨?_, ?_, ?_⟩
      · intro u _ q hq hid
        simp only [generateAndSavePlan, hlev] at hq
        exact status_of_mem_updatePlanStatus hq hid
      · intro e' he'
        simp [generateAndSavePlan, hlev] at he'
      · intro pr1 levels1 h1 h2
        injection h1 with hp
        subst hp
        rw [hlev] at h2
        injection h2 with hl
        subst hl
        refine ⟨by simp [generateAndSavePlan, hlev], ?_,
          by simp [generateAndSavePlan, hlev], ?_, ?_⟩
        · exact insertPlannerTasks_status plan levels genId pr.tasks 0
        · intro d hd
          have hmem := (insertPlannerDeps_endpoints _ genId pr.tasks pr.tasks.length d hd).1
          obtain ⟨p, hpm, hv⟩ := List.mem_map.mp hmem
          refine ⟨p.2, ?_, hv.symm⟩
          exact insertPlannerTasks_idMap_values plan levels genId pr.tasks 0 p.1 p.2 hpm
        · intro d hd
          have hmem := (insertPlannerDeps_endpoints _ genId pr.tasks pr.tasks.length d hd).2
          obtain ⟨p, hpm, hv⟩ := List.mem_map.mp hmem
          refine ⟨p.2, ?_, hv.symm⟩
          exact insertPlannerTasks_idMap_values plan levels genId pr.tasks 0 p.1 p.2 hpm

/-- C8 witness: a planner result with `t1` (no dependencies) and `t2`
(depending on `t1`) persists `t1` as `ready` (level 0) and `t2` as `pending`
(level 1), and the amended theorem's success branch applies to it. -/
theorem c8_planner_persistence_witness :
    (generateAndSavePlan ⟨[⟨"p1", "proj", "P", none, "main", "draft"⟩], [], []⟩
        ⟨"p1", "proj", "P", none, "main", "draft"⟩
        (.ok ⟨[⟨"t1", "T1", "D1", 50, []⟩, ⟨"t2", "T2", "D2", 50, ["t1"]⟩], "s"⟩)
        (fun n => "id" ++ toString n)).1.tasks.map
      (fun t => (t.status, t.level)) = [("ready", 0), ("pending", 1)] ∧
    (∀ t ∈ (insertPlannerTasks ⟨"p1", "proj", "P", none, "main", "draft"⟩
        [("t1", 0), ("t2", 1)] (fun n => "id" ++ toString n)
        [⟨"t1", "T1", "D1", 50, []⟩, ⟨"t2", "T2", "D2", 50, ["t1"]⟩] 0).1,
      t.planId = "p1" ∧ t.status = (if t.level == 0 then "ready" else "pending")) := by
  constructor
  · decide
  · have h := (c8_planner_persistence
      ⟨[⟨"p1", "proj", "P", none, "main", "draft"⟩], [], []⟩
      ⟨"p1", "proj", "P", none, "main", "draft"⟩
      (.ok ⟨[⟨"t1", "T1", "D1", 50, []⟩, ⟨"t2", "T2", "D2", 50, ["t1"]⟩], "s"⟩)
      (fun n => "id" ++ toString n)).2.2
      ⟨[⟨"t1", "T1", "D1", 50, []⟩, ⟨"t2", "T2", "D2", 50, ["t1"]⟩], "s"⟩
      [("t1", 0), ("t2", 1)] rfl (by decide)
    exact h.2.1

/-! ## C3 — the ready-set computation -/

theorem readyCond (completed : List String) (p : String × TaskNode) (t : Task) :
    (if p.1 ∈ completed then none
     else if p.2.task.status ≠ "pending" ∧ p.2.task.status ≠ "ready" then none
     else if p.2.dependencies.all (fun d => decide (d ∈ completed)) then
       some p.2.task
     else none) = some t ↔
    (p.2.task = t ∧ p.1 ∉ completed ∧
      (p.2.task.status = "pending" ∨ p.2.task.status = "ready") ∧
      ∀ d ∈ p.2.dependencies, d ∈ completed) := by
  by_cases h1 : p.1 ∈ completed
  · simp [h1]
  · by_cases h2 : p.2.task.status ≠ "pending" ∧ p.2.task.status ≠ "ready"
    · rcases h2 with ⟨ha, hb⟩
      simp [h1, ha, hb]
    · have hst : p.2.task.status = "pending" ∨ p.2.task.status = "ready" := by
        rcases not_and_or.mp h2 with h | h
        · exact Or.inl (not_not.mp h)
        · exact Or.inr (not_not.mp h)
      by_cases h3 : p.2.dependencies.all (fun d => decide (d ∈ completed)) = true
      · have hdeps : ∀ d ∈ p.2.dependencies, d ∈ completed := by
          intro d hd
          have := List.all_eq_true.mp h3 d hd
          exact of_decide_eq_true this
        rw [if_neg h1, if_neg h2, if_pos h3]
        constructor
        · intro h
          exact ⟨Option.some.inj h, h1, hst, hdeps⟩
        · rintro ⟨h, -⟩
          rw [h]
      · rw [if_neg h1, if_neg h2, if_neg h3]
        constructor
        · intro h
          exact Option.noConfusion h
        · rintro ⟨-, -, -, hall⟩
          exact absurd
            (by
              rw [List.all_eq_true]
              intro d hd
              exact decide_eq_true (hall d hd))
            h3

/-- C3, counterexample: the claim says `getReadyTasks` returns exactly the
tasks whose status is `pending`/`ready` and whose dependencies are all in
`completed`, for every set `completed` of task identities.  In the graph of
the single task `A` — status `pending`, no dependencies — with
`completed = {A}`, task `A` satisfies that characterisation, yet the computed
ready set is empty: the code additionally skips every task whose own id is in
`completed`. -/
theorem c3_ready_counterexample :
    (buildDependencyGraph
        [⟨"A", "p", "A", "A", "pending", 0, none, none, none, none⟩] []).map
      (fun g => getReadyTasks g ["A"]) = .ok [] ∧
    (buildDependencyGraph
        [⟨"A", "p", "A", "A", "pending", 0, none, none, none, none⟩] []).map
      (fun g => g.nodes.map (fun p => (p.1, p.2.task.status, p.2.dependencies))) =
      .ok [("A", "pending", [])] := by
  refine ⟨by decide, by decide⟩

/-- C3, amended: for every dependency graph and every set `completed` of task
identities, `getReadyTasks` returns exactly the tasks of the graph whose own
id is not in `completed`, whose status is `pending` or `ready`, and all of
whose dependencies are in `completed`.  The computation reads only the graph
and the completed set and builds a fresh list, so it is pure, and repeated
calls on the same arguments return the same result. -/
theorem c3_ready_set (g : DependencyGraph) (completed : List String) (t : Task) :
    t ∈ getReadyTasks g completed ↔
      ∃ p, p ∈ g.nodes ∧ p.2.task = t ∧ p.1 ∉ completed ∧
        (p.2.task.status = "pending" ∨ p.2.task.status = "ready") ∧
        ∀ d ∈ p.2.dependencies, d ∈ completed := by
  unfold getReadyTasks
  rw [List.mem_filterMap]
  constructor
  · rintro ⟨p, hp, hcond⟩
    exact ⟨p, hp, (readyCond completed p t).mp hcond⟩
  · rintro ⟨p, hp, hcond⟩
    exact ⟨p, hp, (readyCond completed p t).mpr hcond⟩

end Taskctl
